import Mathlib

/-!
Verification of the text-file-sort external sort engine.

This file shallowly embeds the core of the repository (key model, record
comparison, chunk enumeration, in-memory sort task, and the k-way merge
engine of src/sort.rs) as executable Lean definitions, and settles the
frozen claims about it.  Rust machine integers are modelled as Nat/Int,
f64 as an inductive with NaN, infinities and exact rationals (rounding of
decimal literals is not modelled; no claim depends on it), byte strings
as List Nat, and fallible code as Option-valued functions.  Loops are
modelled with an explicit fuel argument; every canonical call supplies
fuel exceeding the loop measure and the lemmas below show the bound never
binds.
-/

namespace TextFileSort

/-- Bytes of a file or of a line, each in 0..255 (the bound is irrelevant
to every claim, so it is not enforced). -/
abbrev Bytes := List Nat

/-- Sort direction.  Modelled from the spec: src/order.rs is not under
src/ (lib.rs declares the module); the spec gives order as Asc | Desc. -/
inductive Order
  | Asc
  | Desc
deriving DecidableEq, Repr

/-- Field types, from src/field_type.rs. -/
inductive FieldType
  | string
  | integer
  | number
deriving DecidableEq, Repr

/-- Field descriptor, from src/field.rs (the name attribute is pure
metadata never read by the engine and is omitted). -/
structure Field where
  index : Nat
  ftype : FieldType
  ignoreBlanks : Bool := false
  ignoreCase : Bool := false
  random : Bool := false
deriving DecidableEq, Repr

/-- Model of an f64 value as used by the Number keys: NaN, the two
infinities, and finite values as exact rationals.  The source compares
non-NaN doubles with partial_cmp, which this order mirrors. -/
inductive FP
  | nan
  | neginf
  | fin (q : Rat)
  | posinf
deriving DecidableEq, Repr

/-- Comparison for a linear order rendered as an Ordering, used to model
Rust Ord on i64, on bytes and on non-NaN doubles. -/
def cmpl {α : Type} [LinearOrder α] (a b : α) : Ordering :=
  if a < b then .lt else if b < a then .gt else .eq

/-- Ord for the Number payload, from src/key.rs lines 136-146: NaN equals
NaN, a NaN on the left is Less than a non-NaN, a non-NaN on the left is
Greater than a NaN, and two non-NaN values compare numerically. -/
def FP.cmp : FP → FP → Ordering
  | .nan, .nan => .eq
  | .nan, _ => .lt
  | _, .nan => .gt
  | .neginf, .neginf => .eq
  | .neginf, _ => .lt
  | _, .neginf => .gt
  | .posinf, .posinf => .eq
  | _, .posinf => .lt
  | .posinf, _ => .gt
  | .fin a, .fin b => cmpl a b

/-- Key values, from src/key.rs. -/
inductive Key
  | str (s : Bytes)
  | int (i : Int)
  | num (n : FP)
deriving DecidableEq, Repr

/-- Constructor rank, used only to totalize cross-typed comparison below. -/
def Key.rank : Key → Nat
  | .str _ => 0
  | .int _ => 1
  | .num _ => 2

/-- Lexicographic list comparison under an element comparison, the shape
shared by Rust str::cmp (byte-wise) and Vec::cmp. -/
def cmpListBy {α : Type} (c : α → α → Ordering) : List α → List α → Ordering
  | [], [] => .eq
  | [], _ :: _ => .lt
  | _ :: _, [] => .gt
  | a :: as, b :: bs =>
    match c a b with
    | .eq => cmpListBy c as bs
    | o => o

/-- Lexicographic byte comparison, modelling Rust str::cmp which is
byte-wise lexicographic. -/
def cmpBytes : Bytes → Bytes → Ordering := cmpListBy cmpl

/-- Ord for Key, from src/key.rs lines 131-148.  The source unwraps the
cross-typed accessor and panics when the two keys have different
constructors; record construction from one fixed field list makes that
branch unreachable, and this embedding totalizes it by constructor rank.
No theorem below depends on the cross-typed branch. -/
def Key.cmp (a b : Key) : Ordering :=
  match a, b with
  | .str s1, .str s2 => cmpBytes s1 s2
  | .int i1, .int i2 => cmpl i1 i2
  | .num n1, .num n2 => FP.cmp n1 n2
  | _, _ => cmpl a.rank b.rank

/-- Lexicographic comparison of key vectors, modelling Rust Vec::cmp. -/
def cmpKeys : List Key → List Key → Ordering := cmpListBy Key.cmp

/-- Record of one line: the raw line bytes and its key vector, from
src/line_record.rs.  The source also stores the job-wide sort direction
in every record; it is constant across a job, and this embedding passes
it to the comparison as a parameter instead. -/
structure Rec where
  line : Bytes
  keys : List Key
deriving DecidableEq, Repr

/-- Direction application, from src/line_record.rs lines 91-118: the key
comparison result is flipped when the order is Desc. -/
def applyOrder : Order → Ordering → Ordering
  | .Asc, o => o
  | .Desc, o => o.swap

/-- Ord for LineRecord, from src/line_record.rs lines 90-119. -/
def recCmp (ord : Order) (a b : Rec) : Ordering :=
  applyOrder ord (cmpKeys a.keys b.keys)

/-- ASCII whitespace test; models Rust char::is_whitespace restricted to
the ASCII range (the claims only exercise ASCII inputs). -/
def isWS (b : Nat) : Bool :=
  b == 32 || b == 9 || b == 10 || b == 13 || b == 11 || b == 12

/-- Trim of both ends, modelling str::trim. -/
def trimBytes (bs : Bytes) : Bytes :=
  ((bs.dropWhile isWS).reverse.dropWhile isWS).reverse

/-- ASCII upper-casing of one byte, modelling str::to_uppercase on the
ASCII range. -/
def upperByte (b : Nat) : Nat :=
  if 97 ≤ b ∧ b ≤ 122 then b - 32 else b

/-- ASCII upper-casing of a byte string. -/
def upperBytes (bs : Bytes) : Bytes := bs.map upperByte

/-- ASCII lower-casing of one byte, used when parsing number literals. -/
def lowerByte (b : Nat) : Nat :=
  if 65 ≤ b ∧ b ≤ 90 then b + 32 else b

/-- Digit test used by the integer and number parsers. -/
def allDigits (ds : Bytes) : Bool :=
  ds.all fun d => decide (48 ≤ d ∧ d ≤ 57)

/-- Value of a digit string. -/
def digitsVal (ds : Bytes) : Nat :=
  ds.foldl (fun acc d => acc * 10 + (d - 48)) 0

/-- Sign splitting shared by the numeric parsers: an optional leading
plus or minus. -/
def splitSign : Bytes → Bool × Bytes
  | 43 :: rest => (false, rest)
  | 45 :: rest => (true, rest)
  | bs => (false, bs)

/-- Model of i64::from_str: optional sign, one or more ASCII digits, and
an overflow check against the i64 range. -/
def parseI64 (bs : Bytes) : Option Int :=
  let sp := splitSign bs
  if sp.2 ≠ [] ∧ allDigits sp.2 then
    let v : Int := if sp.1 then -(digitsVal sp.2 : Int) else (digitsVal sp.2 : Int)
    if -(2 ^ 63) ≤ v ∧ v ≤ 2 ^ 63 - 1 then some v else none
  else none

/-- Splits a byte string on every occurrence of a separator byte,
modelling str::split; the result is always non-empty and empty parts are
kept. -/
def splitOnByte (sep : Nat) : Bytes → List Bytes
  | [] => [[]]
  | b :: rest =>
    if b = sep then [] :: splitOnByte sep rest
    else
      match splitOnByte sep rest with
      | [] => [[b]]
      | p :: ps => (b :: p) :: ps

/-- Mantissa of a decimal literal: digits, digits dot digits, digits dot,
or dot digits, modelling the significand grammar of f64::from_str. -/
def parseMantissa (m : Bytes) : Option Rat :=
  match splitOnByte 46 m with
  | [ip] => if ip ≠ [] ∧ allDigits ip then some (digitsVal ip : Rat) else none
  | [ip, fp] =>
    if (ip ≠ [] ∨ fp ≠ []) ∧ allDigits ip ∧ allDigits fp then
      some ((digitsVal ip : Rat) + (digitsVal fp : Rat) / (10 : Rat) ^ fp.length)
    else none
  | _ => none

/-- Exponent of a decimal literal: optional sign and one or more digits. -/
def parseExpInt (e : Bytes) : Option Int :=
  let sp := splitSign e
  if sp.2 ≠ [] ∧ allDigits sp.2 then
    some (if sp.1 then -(digitsVal sp.2 : Int) else (digitsVal sp.2 : Int))
  else none

/-- Model of f64::from_str: optional sign, then nan, inf, infinity
(case-insensitive) or a decimal literal with an optional exponent.
Saturation of huge exponents to infinity and rounding to the nearest
double are not modelled; no claim depends on them. -/
def parseF64 (bs : Bytes) : Option FP :=
  let sp := splitSign bs
  let low := sp.2.map lowerByte
  if low = [110, 97, 110] then some .nan
  else if low = [105, 110, 102] ∨ low = [105, 110, 102, 105, 110, 105, 116, 121] then
    some (if sp.1 then .neginf else .posinf)
  else
    match splitOnByte 101 low with
    | [m] => (parseMantissa m).map fun q => .fin (if sp.1 then -q else q)
    | [m, e] =>
      match parseMantissa m, parseExpInt e with
      | some q, some ev =>
        some (.fin (if sp.1 then -(q * (10 : Rat) ^ ev) else q * (10 : Rat) ^ ev))
      | _, _ => none
    | _ => none

/-- Oracle for the fresh random values drawn at key-construction time:
the 128-bit random hex string, the random i64 and the random f64 that
rand::random would produce.  A single oracle value models the stream of
draws; every theorem below is either about random-free configurations
(where the oracle is irrelevant, see keyNew_rng_irrelevant) or about a
single draw. -/
structure RNG where
  hexStr : Bytes
  rint : Int
  rnum : FP
deriving Repr

/-- Key construction, from src/key.rs lines 23-70.  String fields are
trimmed when ignore_blanks, upper-cased when ignore_case, and replaced
by a fresh random hex string when random.  Integer and Number fields
first parse the trimmed text (failure aborts construction) and then
replace the parsed value by a fresh random one when random. -/
def Key.new (rng : RNG) (text : Bytes) (f : Field) : Option Key :=
  match f.ftype with
  | .string =>
    let k := text
    let k := if f.ignoreBlanks then trimBytes k else k
    let k := if f.ignoreCase then upperBytes k else k
    let k := if f.random then rng.hexStr else k
    some (.str k)
  | .integer =>
    (parseI64 (trimBytes text)).map fun v => .int (if f.random then rng.rint else v)
  | .number =>
    (parseF64 (trimBytes text)).map fun v => .num (if f.random then rng.rnum else v)

/-- Option-valued map over a list, modelling a loop that aborts on the
first failure (the record-construction loop and the merge construction
map of the source). -/
def mapOpt {α β : Type} (f : α → Option β) : List α → Option (List β)
  | [] => some []
  | a :: as =>
    match f a with
    | none => none
    | some b =>
      match mapOpt f as with
      | none => none
      | some bs => some (b :: bs)

/-- Key list of the multi-field branch of LineRecord::new, from
src/line_record.rs lines 31-56: a field of index 0 mixed into the list
is an error, an index beyond the available parts is an error, and
otherwise the 1-based part is keyed. -/
def mkKeys (rng : RNG) (parts : List Bytes) (fields : List Field) : Option (List Key) :=
  mapOpt
    (fun f =>
      if f.index = 0 then none
      else if parts.length < f.index then none
      else Key.new rng (parts.getD (f.index - 1) []) f)
    fields

/-- Record construction, from src/line_record.rs lines 17-69: a single
field of index 0 keys the whole line (terminator included); otherwise
the line is split on the separator and each field extracts its part. -/
def LineRecord.new (rng : RNG) (line : Bytes) (fields : List Field) (sep : Nat) :
    Option Rec :=
  match fields with
  | [f] =>
    if f.index = 0 then (Key.new rng line f).map fun k => ⟨line, [k]⟩
    else (mkKeys rng (splitOnByte sep line) [f]).map fun ks => ⟨line, ks⟩
  | _ => (mkKeys rng (splitOnByte sep line) fields).map fun ks => ⟨line, ks⟩

/-- Job configuration, the slice of src/config.rs the claims need.  The
ignore-lines regex is modelled as an opaque predicate applied to the
trimmed line, mirroring Regex::is_match. -/
structure Config where
  fieldSep : Nat
  ignoreEmpty : Bool
  ignoreLine : Option (Bytes → Bool)
  fields : List Field
  ord : Order
  affixPre : List Bytes
  affixSuf : List Bytes
  endl : Nat
  jump : Nat
  concurrentMerge : Bool

/-- Record construction under a configuration. -/
def parseLine (rng : RNG) (cfg : Config) (l : Bytes) : Option Rec :=
  LineRecord.new rng l cfg.fields cfg.fieldSep

/-- Line filter of the sort task and the checker, from
src/sort_command.rs lines 63-73: a line is dropped when ignore_empty is
set and its trim is empty, or when the ignore-lines pattern matches its
trim. -/
def keepLine (cfg : Config) (l : Bytes) : Bool :=
  !(cfg.ignoreEmpty && (trimBytes l).isEmpty) &&
    (match cfg.ignoreLine with
     | some p => !(p (trimBytes l))
     | none => true)

/-- Splits a byte stream into lines the way BufRead::read_line does:
every line keeps its terminator, and a final fragment without a
terminator is itself a line. -/
def splitLines (endl : Nat) : Bytes → List Bytes
  | [] => []
  | b :: rest =>
    if b = endl then [endl] :: splitLines endl rest
    else
      match splitLines endl rest with
      | [] => [[b]]
      | l :: ls => (b :: l) :: ls

/-- Number of bytes read_until consumes from a stream: up to and
including the first terminator, or the whole stream. -/
def readUntil (endl : Nat) : Bytes → Nat
  | [] => 0
  | b :: rest => if b = endl then 1 else 1 + readUntil endl rest

/-- Chunk enumeration from a position, from src/chunk_iterator.rs lines
90-110: when the remainder fits the target the final chunk covers it,
otherwise the iterator seeks the target forward, reads to the next
terminator, and emits the extended chunk.  The fuel argument makes the
recursion structural; chunks supplies fuel exceeding the file length,
which the lemmas below show is always enough. -/
def chunksFrom (file : Bytes) (jump endl : Nat) : Nat → Nat → List (Nat × Nat)
  | 0, _ => []
  | fuel + 1, pos =>
    let rem := file.length - pos
    if rem = 0 then []
    else if rem ≤ jump then [(pos, rem)]
    else
      let nxt := pos + jump + readUntil endl (file.drop (pos + jump))
      (pos, nxt - pos) :: chunksFrom file jump endl fuel nxt

/-- Chunk list of a file, from src/chunk_iterator.rs. -/
def chunks (file : Bytes) (jump endl : Nat) : List (Nat × Nat) :=
  chunksFrom file jump endl (file.length + 1) 0

/-- One stored line of a run file as the merge reader sees it: either the
text of the line, or a read that fails with an I/O error at that point. -/
inductive RLine
  | ioerr
  | text (bs : Bytes)
deriving DecidableEq, Repr

/-- Run file handed to the merge engine: an identifier standing for its
filesystem path, and its line stream. -/
structure RunFile where
  id : Nat
  lines : List RLine
deriving DecidableEq, Repr

/-- Streaming reader over a sorted run, from src/unmerged_chunk_file.rs:
the lookahead head record (none when exhausted) and the remaining lines
of the file. -/
structure Reader where
  id : Nat
  head : Option Rec
  rest : List RLine
deriving DecidableEq, Repr

/-- Reader construction, from src/unmerged_chunk_file.rs lines 23-51: the
first line is read and parsed eagerly; a read error or a parse error on
that first line propagates as an error (the merge engine then panics on
its unwrap). -/
def Reader.new (rng : RNG) (cfg : Config) (f : RunFile) : Option Reader :=
  match f.lines with
  | [] => some ⟨f.id, none, []⟩
  | .ioerr :: _ => none
  | .text l :: rest => (parseLine rng cfg l).map fun r => ⟨f.id, some r, rest⟩

/-- Advance of a reader, from src/unmerged_chunk_file.rs lines 53-62: a
failing read returns none at once (head untouched); otherwise the next
line is read and parsed with errors swallowed by ok(), and the previous
head is returned while the parse result replaces it. -/
def Reader.lineRecord (rng : RNG) (cfg : Config) : Reader → Option Rec × Reader
  | ⟨i, h, []⟩ => (h, ⟨i, none, []⟩)
  | ⟨i, h, .ioerr :: rest⟩ => (none, ⟨i, h, .ioerr :: rest⟩)
  | ⟨i, h, .text l :: rest⟩ => (h, ⟨i, parseLine rng cfg l, rest⟩)

/-- Ord for the merge readers, from src/unmerged_chunk_file.rs lines
89-102: head comparison is flipped so the max-heap surfaces the smallest
head, and a reader with no head is Greater than one with a head (the
source comment: none is greater than some, so empty files pop from the
BinaryHeap first). -/
def cmpReader (ord : Order) (a b : Reader) : Ordering :=
  match a.head, b.head with
  | none, none => .eq
  | none, some _ => .gt
  | some _, none => .lt
  | some x, some y => recCmp ord y x

/-- Scan for the first maximal element, modelling BinaryHeap::pop which
returns a maximal element of the heap (tie-breaking among equal elements
is unspecified in the source; this model fixes the first one). -/
def popMaxGo (ord : Order) : Reader → List Reader → List Reader → Reader × List Reader
  | best, acc, [] => (best, acc.reverse)
  | best, acc, x :: xs =>
    if cmpReader ord x best = .gt then popMaxGo ord x (best :: acc) xs
    else popMaxGo ord best (x :: acc) xs

/-- Pop of the merge heap: the maximal reader and the remaining ones. -/
def popMax (ord : Order) : List Reader → Option (Reader × List Reader)
  | [] => none
  | r :: rs => some (popMaxGo ord r [] rs)

/-- Loop measure of one reader, used to size the fuel of the loops
below. -/
def readerMeasure (r : Reader) : Nat :=
  2 * r.rest.length + (if r.head.isSome then 1 else 0)

/-- Loop measure of the whole heap. -/
def heapMeasure (H : List Reader) : Nat :=
  (H.map readerMeasure).sum + 2 * H.length

/-- Inner batch loop of the merge, from src/sort.rs lines 458-473: while
the popped reader is still Greater-or-equal than the new heap top (i.e.
its head does not exceed the top's head) its head line is emitted and
the reader advances; when line_record returns none the reader is done,
its file is removed when the removal flag is set, and it is dropped;
otherwise it is handed back for re-insertion.  Returns the emitted
lines, the removed file ids, and the reader to push back (none when
dropped, which includes the fuel-exhausted default never reached by
canonical calls). -/
def drainBatch (rng : RNG) (cfg : Config) (rm : Bool) (top : Reader) :
    Nat → Reader → List Bytes × List Nat × Option Reader
  | 0, cur => ([], [], some cur)
  | fuel + 1, cur =>
    if cmpReader cfg.ord cur top = .lt then ([], [], some cur)
    else
      match Reader.lineRecord rng cfg cur with
      | (some r, cur2) =>
        let t := drainBatch rng cfg rm top fuel cur2
        (r.line :: t.1, t.2.1, t.2.2)
      | (none, _) => ([], if rm then [cur.id] else [], none)

/-- Outer merge loop, from src/sort.rs lines 454-477: while more than one
reader remains, pop the maximal reader, peek at the new top, run the
batch loop, and push the reader back unless it was dropped.  Returns the
emitted lines, the removed file ids and the final heap. -/
def mergeLoop (rng : RNG) (cfg : Config) (rm : Bool) :
    Nat → List Reader → List Bytes × List Nat × List Reader
  | 0, H => ([], [], H)
  | fuel + 1, H =>
    if H.length ≤ 1 then ([], [], H)
    else
      match popMax cfg.ord H with
      | none => ([], [], H)
      | some (cur, rest) =>
        match popMax cfg.ord rest with
        | none => ([], [], H)
        | some (top, _) =>
          let d := drainBatch rng cfg rm top (readerMeasure cur + 1) cur
          match d.2.2 with
          | some cur2 =>
            let t := mergeLoop rng cfg rm fuel (cur2 :: rest)
            (d.1 ++ t.1, d.2.1 ++ t.2.1, t.2.2)
          | none =>
            let t := mergeLoop rng cfg rm fuel rest
            (d.1 ++ t.1, d.2.1 ++ t.2.1, t.2.2)

/-- Final drain of the last reader, from src/sort.rs lines 478-489: its
lines are streamed out and its file is removed unconditionally once
line_record returns none. -/
def drainAll (rng : RNG) (cfg : Config) : Nat → Reader → List Bytes × List Nat
  | 0, _ => ([], [])
  | fuel + 1, cur =>
    match Reader.lineRecord rng cfg cur with
    | (some r, cur2) =>
      let t := drainAll rng cfg fuel cur2
      (r.line :: t.1, t.2)
    | (none, _) => ([], [cur.id])

/-- Text test on a stored line. -/
def RLine.isText : RLine → Bool
  | .ioerr => false
  | .text _ => true

/-- Text payload of a stored line. -/
def RLine.textOf : RLine → Bytes
  | .ioerr => []
  | .text b => b

/-- Outcome of the merge engine and of the whole job: a panic (unwrap or
expect failure), an error return, or success with the written line
chunks and the removed file ids; the output file bytes are the join of
the written chunks. -/
inductive MOut
  | panic
  | err
  | ok (out : List Bytes) (removed : List Nat)
deriving DecidableEq, Repr

/-- Merge engine, from src/sort.rs lines 418-500.  Prefix lines are
written first and suffix lines last when the affix flag is set (writeln
appends the terminator).  With exactly one input the file is streamed
line by line and then removed without consulting the removal flag
(source line 441); a read error surfaces as an error return.  Otherwise
one reader per input is built (construction failure panics on the
unwrap at line 451), the merge loop runs, and the last reader is popped
(panicking on the unwrap at line 478 when there is none, in particular
on an empty input list) and drained with an unconditional removal. -/
def internalMerge (rng : RNG) (cfg : Config) (rm withAffix : Bool)
    (files : List RunFile) : MOut :=
  let pre := if withAffix then cfg.affixPre.map (fun l => l ++ [cfg.endl]) else []
  let suf := if withAffix then cfg.affixSuf.map (fun l => l ++ [cfg.endl]) else []
  match files with
  | [f] =>
    if f.lines.all RLine.isText then .ok (pre ++ f.lines.map RLine.textOf ++ suf) [f.id]
    else .err
  | _ =>
    match mapOpt (Reader.new rng cfg) files with
    | none => .panic
    | some readers =>
      let m := mergeLoop rng cfg rm (heapMeasure readers + 1) readers
      match popMax cfg.ord m.2.2 with
      | none => .panic
      | some (last, _) =>
        let d := drainAll rng cfg (readerMeasure last + 1) last
        .ok (pre ++ m.1 ++ d.1 ++ suf) (m.2.1 ++ d.2)

/-- Byte slice of one chunk, modelling the seek-and-read_exact of
src/sort_command.rs lines 52-55. -/
def sliceBytes (file : Bytes) (c : Nat × Nat) : Bytes :=
  (file.drop c.1).take c.2

/-- Insertion into a sorted list under a comparison. -/
def insertOrd {α : Type} (c : α → α → Ordering) (a : α) : List α → List α
  | [] => [a]
  | b :: bs => if c a b = .gt then b :: insertOrd c a bs else a :: b :: bs

/-- Insertion sort under a comparison; models the contract of Vec::sort
(the output is a sorted permutation of the input), not its algorithm. -/
def sortOrd {α : Type} (c : α → α → Ordering) : List α → List α
  | [] => []
  | a :: as => insertOrd c a (sortOrd c as)

/-- Record reading of one chunk, from src/sort_command.rs lines 45-97:
the chunk's lines are filtered and each surviving line is parsed, any
parse failure aborting the task. -/
def readRecords (rng : RNG) (cfg : Config) (chunk : Bytes) : Option (List Rec) :=
  mapOpt (parseLine rng cfg) ((splitLines cfg.endl chunk).filter (keepLine cfg))

/-- One sort-task execution, from src/sort_command.rs lines 101-127 and
27-43: the chunk's records are sorted and their lines written to a fresh
run file, modelled as the re-split of the written bytes. -/
def taskRun (rng : RNG) (cfg : Config) (i : Nat) (chunk : Bytes) : Option RunFile :=
  (readRecords rng cfg chunk).map fun recs =>
    ⟨i, (splitLines cfg.endl (((sortOrd (recCmp cfg.ord) recs).map Rec.line).flatten)).map
      RLine.text⟩

/-- Pairs every element with an index from a start value. -/
def withIds {α : Type} (start : Nat) : List α → List (Nat × α)
  | [] => []
  | a :: as => (start, a) :: withIds (start + 1) as

/-- Chunk byte streams of the whole input list, from src/sort.rs lines
515-520. -/
def jobChunks (cfg : Config) (files : List Bytes) : List Bytes :=
  (files.map fun f => (chunks f cfg.jump cfg.endl).map (sliceBytes f)).flatten

/-- Whole sort job, from Sort::internal_sort (src/sort.rs lines 502-537),
modelled as the canonical sequential schedule: a missing input panics on
the unwrap of ChunkIterator::new at line 516; each chunk becomes one
sort task whose parse failure surfaces as the job error; when
concurrent_merge is set and more than one run exists the worker's runs
are collapsed by one merge pass without affixes whose failure panics on
the expect at line 309; and the surviving runs are merged with removal
and affixes.  The rlimit manipulation and the final rename are
environmental effects outside the claims. -/
def sortJob (rng : RNG) (cfg : Config) (inputs : List (Option Bytes)) : MOut :=
  if inputs.any (fun o => o.isNone) then .panic
  else
    let cs := jobChunks cfg (inputs.filterMap id)
    match mapOpt (fun p => taskRun rng cfg p.1 p.2) (withIds 0 cs) with
    | none => .err
    | some runs =>
      if cfg.concurrentMerge ∧ 1 < runs.length then
        match internalMerge rng cfg true false runs with
        | .ok outLines _ =>
          internalMerge rng cfg true true
            [⟨cs.length, (splitLines cfg.endl outLines.flatten).map RLine.text⟩]
        | _ => .panic
      else internalMerge rng cfg true true runs

/-- Sorted run file descriptor, from src/sorted_chunk_file.rs: the path
(as an identifier) and the line count; ordering uses the line count
only. -/
structure SCF where
  path : Nat
  lines : Nat
deriving DecidableEq, Repr

/-- Scan for the first minimal run by line count, modelling the pop of
the per-worker BinaryHeap of Reverse-wrapped runs, which is a min-heap
on the line count (ties unspecified in the source; this model fixes the
first one). -/
def popMinGo : SCF → List SCF → List SCF → SCF × List SCF
  | best, acc, [] => (best, acc.reverse)
  | best, acc, x :: xs =>
    if x.lines < best.lines then popMinGo x (best :: acc) xs
    else popMinGo best (x :: acc) xs

/-- Pop of the per-worker run heap. -/
def popMinSCF : List SCF → Option (SCF × List SCF)
  | [] => none
  | r :: rs => some (popMinGo r [] rs)

/-- One sort-task completion on a worker, from src/sort_command.rs lines
101-127: when the local heap holds fewer than files/tasks runs the new
run is pushed; otherwise the two smallest runs are popped, merged into
one (whose line count is their sum in the error-free case) that is
pushed back, and the new run is then written and pushed. -/
def executeTask (kcap : Nat) (heap : List SCF) (nw : SCF) : List SCF :=
  if heap.length < kcap then nw :: heap
  else
    match popMinSCF heap with
    | none => nw :: heap
    | some (f1, h1) =>
      match popMinSCF h1 with
      | none => nw :: heap
      | some (f2, h2) => nw :: ⟨f1.path, f1.lines + f2.lines⟩ :: h2

/-- Worker state after a sequence of task completions. -/
def runTasks (kcap : Nat) : List SCF → List SCF → List SCF
  | heap, [] => heap
  | heap, t :: ts => runTasks kcap (executeTask kcap heap t) ts

/-- Non-strict record order induced by the comparison. -/
def leRec (ord : Order) (a b : Rec) : Prop := recCmp ord a b ≠ .gt

instance leRecDec (ord : Order) (a b : Rec) : Decidable (leRec ord a b) := by
  unfold leRec
  infer_instance

/-- Shape of a line produced by read_line on a terminator-terminated
stream: non-empty, ending with the terminator, with no interior
terminator. -/
def goodLine (endl : Nat) (l : Bytes) : Prop :=
  l ≠ [] ∧ l.getLast? = some endl ∧ ∀ x ∈ l.dropLast, x ≠ endl

instance goodLineDec (endl : Nat) (l : Bytes) : Decidable (goodLine endl l) := by
  unfold goodLine
  infer_instance

/-- Lawfulness of a comparison: antisymmetric swap and transitivity of
the induced non-strict order.  Every comparison of the source satisfies
it (theorems below). -/
def CmpLawful {α : Type} (c : α → α → Ordering) : Prop :=
  (∀ a b, c a b = (c b a).swap) ∧
  (∀ a b d, c a b ≠ .gt → c b d ≠ .gt → c a d ≠ .gt)

/-- Contiguity of a chunk list: the ranges tile the interval from start
to stop with positive lengths. -/
def contiguous : Nat → Nat → List (Nat × Nat) → Prop
  | start, stop, [] => start = stop
  | start, stop, (o, l) :: rest => o = start ∧ 0 < l ∧ contiguous (start + l) stop rest

/-- Boundary property of a chunk list: every boundary between two
consecutive chunks falls immediately after a line terminator. -/
def boundariesOk (file : Bytes) (endl : Nat) : List (Nat × Nat) → Prop
  | [] => True
  | [_] => True
  | (o, l) :: c2 :: rest => file.getD (o + l - 1) 0 = endl ∧ boundariesOk file endl (c2 :: rest)

/-- Non-strict order on output lines under the configured fields: the key
vectors of the parses compare without exceeding, in the direction given
by the order (Asc means not greater, Desc means not smaller). -/
def lineLE (rng : RNG) (cfg : Config) (a b : Bytes) : Prop :=
  ∀ ra rb, parseLine rng cfg a = some ra → parseLine rng cfg b = some rb →
    (match cfg.ord with
     | .Asc => cmpKeys ra.keys rb.keys ≠ .gt
     | .Desc => cmpKeys ra.keys rb.keys ≠ .lt)

/-- Readability of one stored line: it is text and parses to a record. -/
def parsesText (rng : RNG) (cfg : Config) : RLine → Bool
  | .ioerr => false
  | .text bs => (parseLine rng cfg bs).isSome

/-- Pending records of a reader: the head, then the parses of the
remaining lines. -/
def readerRecs (rng : RNG) (cfg : Config) (r : Reader) : List Rec :=
  (match r.head with
   | some h => [h]
   | none => []) ++
    r.rest.filterMap fun l =>
      match l with
      | .ioerr => none
      | .text bs => parseLine rng cfg bs

/-- Records stored in a run file: the parses of its readable lines. -/
def runRecs (rng : RNG) (cfg : Config) (f : RunFile) : List Rec :=
  f.lines.filterMap fun l =>
    match l with
    | .ioerr => none
    | .text bs => parseLine rng cfg bs

/-- Well-formedness of a reader during an error-free merge: every
remaining line is readable, an empty head means an exhausted stream, and
the head parses from its own line. -/
def RWF (rng : RNG) (cfg : Config) (r : Reader) : Prop :=
  (∀ l ∈ r.rest, parsesText rng cfg l = true) ∧
    (r.head = none → r.rest = []) ∧
    (∀ rc, r.head = some rc → parseLine rng cfg rc.line = some rc)

/-- Surviving lines of one input file, after the ignore_empty and
ignore_lines filters. -/
def keptLines (cfg : Config) (f : Bytes) : List Bytes :=
  (splitLines cfg.endl f).filter (keepLine cfg)

/-- Run file as read back from a shard path: its byte stream split into
lines. -/
def shardRun (endl : Nat) (p : Nat × Bytes) : RunFile :=
  ⟨p.1, (splitLines endl p.2).map RLine.text⟩

/-- Fixed oracle used wherever a theorem is insensitive to the random
draws. -/
def rng0 : RNG := ⟨[], 0, .fin 0⟩

/-- Default-like configuration used by concrete instances: whole line as
a single String key, tab separator, newline terminator, no filters, no
affixes, ascending. -/
def cfgStd : Config :=
  ⟨9, false, none, [⟨0, .string, false, false, false⟩], .Asc, [], [], 10, 1000, true⟩

/-- Configuration whose field list mixes index 0 with another index, the
invalid combination rejected by LineRecord::new. -/
def cfgMix : Config :=
  ⟨9, false, none, [⟨0, .string, false, false, false⟩, ⟨1, .string, false, false, false⟩],
    .Asc, [], [], 10, 1000, true⟩

/-- Configuration keying on the first tab-separated field as a String:
distinct lines can carry equal keys. -/
def cfgTab : Config :=
  ⟨9, false, none, [⟨1, .string, false, false, false⟩], .Asc, [], [], 10, 1000, true⟩

/-- Configuration keying on the first tab-separated field as an Integer:
non-numeric lines fail to parse into records. -/
def cfgInt : Config :=
  ⟨9, false, none, [⟨1, .integer, false, false, false⟩], .Asc, [], [], 10, 1000, true⟩

/-! Lawfulness of the comparisons. -/

theorem swap_swap_self (o : Ordering) : o.swap.swap = o := by
  cases o <;> rfl

theorem swap_ne_gt {o : Ordering} : o.swap ≠ .gt ↔ o ≠ .lt := by
  cases o <;> simp [Ordering.swap]

theorem swap_eq_iff {o p : Ordering} : o.swap = p ↔ o = p.swap := by
  cases o <;> cases p <;> simp [Ordering.swap]

theorem cmpl_lt_iff {α : Type} [LinearOrder α] {a b : α} : cmpl a b = .lt ↔ a < b := by
  unfold cmpl
  by_cases h : a < b
  · simp [h]
  · by_cases h2 : b < a <;> simp [h, h2]

theorem cmpl_gt_iff {α : Type} [LinearOrder α] {a b : α} : cmpl a b = .gt ↔ b < a := by
  unfold cmpl
  by_cases h : a < b
  · simp [h, lt_asymm h]
  · by_cases h2 : b < a <;> simp [h, h2]

theorem cmpl_eq_iff {α : Type} [LinearOrder α] {a b : α} : cmpl a b = .eq ↔ a = b := by
  unfold cmpl
  by_cases h : a < b
  · simp [h, ne_of_lt h]
  · by_cases h2 : b < a
    · simp [h, h2, ne_of_gt h2]
    · simp [h, h2, le_antisymm (not_lt.mp h2) (not_lt.mp h)]

theorem cmpl_lawful {α : Type} [LinearOrder α] : CmpLawful (cmpl (α := α)) := by
  constructor
  · intro a b
    rcases lt_trichotomy a b with h | h | h
    · rw [cmpl_lt_iff.mpr h, cmpl_gt_iff.mpr h]
      rfl
    · subst h
      rw [cmpl_eq_iff.mpr rfl]
      rfl
    · rw [cmpl_gt_iff.mpr h, cmpl_lt_iff.mpr h]
      rfl
  · intro a b d hab hbd
    intro h
    rw [cmpl_gt_iff] at h
    have h1 : a ≤ b := not_lt.mp fun hh => hab (cmpl_gt_iff.mpr hh)
    have h2 : b ≤ d := not_lt.mp fun hh => hbd (cmpl_gt_iff.mpr hh)
    exact absurd h (not_lt.mpr (le_trans h1 h2))

theorem cmp_gt_of_lt {α : Type} {c : α → α → Ordering} (hc : CmpLawful c) {a b : α}
    (h : c a b = .lt) : c b a = .gt := by
  have h2 := hc.1 b a
  rw [h] at h2
  exact h2

theorem cmp_lt_of_gt {α : Type} {c : α → α → Ordering} (hc : CmpLawful c) {a b : α}
    (h : c a b = .gt) : c b a = .lt := by
  have h2 := hc.1 b a
  rw [h] at h2
  exact h2

theorem cmp_eq_symm {α : Type} {c : α → α → Ordering} (hc : CmpLawful c) {a b : α}
    (h : c a b = .eq) : c b a = .eq := by
  have h2 := hc.1 b a
  rw [h] at h2
  exact h2

theorem cmpListBy_swap {α : Type} {c : α → α → Ordering} (hc : CmpLawful c) :
    ∀ a b : List α, cmpListBy c a b = (cmpListBy c b a).swap := by
  intro a
  induction a with
  | nil =>
    intro b
    cases b <;> rfl
  | cons x xs ih =>
    intro b
    cases b with
    | nil => rfl
    | cons y ys =>
      have hxy := hc.1 x y
      rcases h : c y x with h1 | h1 | h1 <;>
        simp [cmpListBy, hxy, h, Ordering.swap, ih ys]

theorem cmpListBy_trans {α : Type} {c : α → α → Ordering} (hc : CmpLawful c) :
    ∀ a b d : List α, cmpListBy c a b ≠ .gt → cmpListBy c b d ≠ .gt →
      cmpListBy c a d ≠ .gt := by
  intro a
  induction a with
  | nil =>
    intro b d _ _
    cases d <;> simp [cmpListBy]
  | cons x xs ih =>
    intro b d hab hbd
    cases b with
    | nil =>
      exact absurd hab (by simp [cmpListBy])
    | cons y ys =>
      cases d with
      | nil =>
        exact absurd hbd (by simp [cmpListBy])
      | cons z zs =>
        have hxy : c x y ≠ .gt := by
          intro h
          exact hab (by simp [cmpListBy, h])
        have hyz : c y z ≠ .gt := by
          intro h
          exact hbd (by simp [cmpListBy, h])
        have hxz : c x z ≠ .gt := hc.2 x y z hxy hyz
        intro hgoal
        simp only [cmpListBy] at hgoal
        rcases h3 : c x z with _ | _ | _
        · rw [h3] at hgoal
          exact absurd hgoal (by simp)
        · rw [h3] at hgoal
          rcases h1 : c x y with _ | _ | _
          · have hyx : c y x = .gt := cmp_gt_of_lt hc h1
            have hzx : c z x = .eq := cmp_eq_symm hc h3
            exact (hc.2 y z x hyz (by simp [hzx])) hyx
          · rcases h2 : c y z with _ | _ | _
            · have hzy : c z y = .gt := cmp_gt_of_lt hc h2
              have hzx : c z x = .eq := cmp_eq_symm hc h3
              exact (hc.2 z x y (by simp [hzx]) (by simp [h1])) hzy
            · have hab2 : cmpListBy c xs ys ≠ .gt := by
                intro hh
                exact hab (by simp [cmpListBy, h1, hh])
              have hbd2 : cmpListBy c ys zs ≠ .gt := by
                intro hh
                exact hbd (by simp [cmpListBy, h2, hh])
              exact (ih ys zs hab2 hbd2) hgoal
            · exact hyz h2
          · exact hxy h1
        · exact hxz h3

theorem cmpListBy_lawful {α : Type} {c : α → α → Ordering} (hc : CmpLawful c) :
    CmpLawful (cmpListBy c) :=
  ⟨cmpListBy_swap hc, cmpListBy_trans hc⟩

theorem cmpBytes_lawful : CmpLawful cmpBytes :=
  cmpListBy_lawful cmpl_lawful

theorem FP_cmp_lawful : CmpLawful FP.cmp := by
  constructor
  · intro a b
    cases a <;> cases b <;> simp [FP.cmp, Ordering.swap]
    exact cmpl_lawful.1 _ _
  · intro a b d hab hbd
    cases a <;> cases b <;> cases d <;> simp_all [FP.cmp]
    exact cmpl_lawful.2 _ _ _ hab hbd

theorem Key_cmp_lawful : CmpLawful Key.cmp := by
  constructor
  · intro a b
    cases a <;> cases b <;>
      simp only [Key.cmp, Key.rank] <;>
      first
        | exact cmpBytes_lawful.1 _ _
        | exact cmpl_lawful.1 _ _
        | exact FP_cmp_lawful.1 _ _
  · intro a b d hab hbd
    cases a <;> cases b <;> cases d <;>
      simp only [Key.cmp, Key.rank] at hab hbd ⊢ <;>
      first
        | exact cmpBytes_lawful.2 _ _ _ hab hbd
        | exact cmpl_lawful.2 _ _ _ hab hbd
        | exact FP_cmp_lawful.2 _ _ _ hab hbd
        | decide
        | exact absurd (by decide) hab
        | exact absurd (by decide) hbd

theorem cmpKeys_lawful : CmpLawful cmpKeys :=
  cmpListBy_lawful Key_cmp_lawful

theorem cmpLawful_comp {α β : Type} {c : α → α → Ordering} (f : β → α)
    (hc : CmpLawful c) : CmpLawful (fun x y => c (f x) (f y)) :=
  ⟨fun a b => hc.1 (f a) (f b), fun a b d => hc.2 (f a) (f b) (f d)⟩

theorem cmpLawful_flip {α : Type} {c : α → α → Ordering} (hc : CmpLawful c) :
    CmpLawful (fun a b => (c a b).swap) := by
  constructor
  · intro a b
    show (c a b).swap = ((c b a).swap).swap
    rw [hc.1 a b]
  · intro a b d hab hbd
    show (c a d).swap ≠ .gt
    have hab2 : (c a b).swap ≠ .gt := hab
    have hbd2 : (c b d).swap ≠ .gt := hbd
    rw [swap_ne_gt] at hab2 hbd2 ⊢
    have h1 : c b a ≠ .gt := by
      intro h
      exact hab2 (cmp_lt_of_gt hc h)
    have h2 : c d b ≠ .gt := by
      intro h
      exact hbd2 (cmp_lt_of_gt hc h)
    have h3 : c d a ≠ .gt := hc.2 d b a h2 h1
    intro h
    exact h3 (cmp_gt_of_lt hc h)

theorem recCmp_lawful (ord : Order) : CmpLawful (recCmp ord) := by
  cases ord with
  | Asc =>
    have h := cmpLawful_comp (c := cmpKeys) Rec.keys cmpKeys_lawful
    exact ⟨h.1, h.2⟩
  | Desc =>
    have h := cmpLawful_flip (cmpLawful_comp (c := cmpKeys) Rec.keys cmpKeys_lawful)
    exact ⟨h.1, h.2⟩

theorem cmpLawful_refl {α : Type} {c : α → α → Ordering} (hc : CmpLawful c) (a : α) :
    c a a = .eq := by
  have h := hc.1 a a
  rcases h2 : c a a with _ | _ | _
  · rw [h2] at h
    exact absurd h (by decide)
  · rfl
  · rw [h2] at h
    exact absurd h (by decide)

theorem insertOrd_gt {α : Type} (c : α → α → Ordering) (a b : α) (bs : List α)
    (h : c a b = .gt) : insertOrd c a (b :: bs) = b :: insertOrd c a bs := by
  simp [insertOrd, h]

theorem insertOrd_ngt {α : Type} (c : α → α → Ordering) (a b : α) (bs : List α)
    (h : ¬c a b = .gt) : insertOrd c a (b :: bs) = a :: b :: bs := by
  simp [insertOrd, h]

theorem insertOrd_perm {α : Type} (c : α → α → Ordering) (a : α) :
    ∀ l : List α, List.Perm (insertOrd c a l) (a :: l) := by
  intro l
  induction l with
  | nil => exact List.Perm.refl _
  | cons b bs ih =>
    by_cases h : c a b = .gt
    · rw [insertOrd_gt c a b bs h]
      exact (ih.cons b).trans (List.Perm.swap a b bs)
    · rw [insertOrd_ngt c a b bs h]

theorem insertOrd_pairwise {α : Type} {c : α → α → Ordering} (hc : CmpLawful c) (a : α) :
    ∀ l : List α, l.Pairwise (fun x y => c x y ≠ .gt) →
      (insertOrd c a l).Pairwise (fun x y => c x y ≠ .gt) := by
  intro l
  induction l with
  | nil =>
    intro _
    simp [insertOrd]
  | cons b bs ih =>
    intro h
    by_cases hab : c a b = .gt
    · rw [insertOrd_gt c a b bs hab]
      rw [List.pairwise_cons]
      constructor
      · intro x hx
        rw [(insertOrd_perm c a bs).mem_iff] at hx
        rcases List.mem_cons.mp hx with hx2 | hx2
        · subst hx2
          rw [cmp_lt_of_gt hc hab]
          simp
        · exact (List.pairwise_cons.mp h).1 x hx2
      · exact ih (List.pairwise_cons.mp h).2
    · rw [insertOrd_ngt c a b bs hab]
      rw [List.pairwise_cons]
      constructor
      · intro x hx
        rcases List.mem_cons.mp hx with hx | hx
        · subst hx
          exact hab
        · exact hc.2 a b x hab ((List.pairwise_cons.mp h).1 x hx)
      · exact h

theorem sortOrd_perm {α : Type} (c : α → α → Ordering) :
    ∀ l : List α, List.Perm (sortOrd c l) l := by
  intro l
  induction l with
  | nil => exact List.Perm.refl _
  | cons a as ih =>
    exact (insertOrd_perm c a (sortOrd c as)).trans (ih.cons a)

theorem sortOrd_pairwise {α : Type} {c : α → α → Ordering} (hc : CmpLawful c) :
    ∀ l : List α, (sortOrd c l).Pairwise (fun x y => c x y ≠ .gt) := by
  intro l
  induction l with
  | nil => simp [sortOrd]
  | cons a as ih => exact insertOrd_pairwise hc a (sortOrd c as) ih

theorem mapOpt_eq_forall2 {α β : Type} {f : α → Option β} :
    ∀ {l : List α} {bs : List β},
      mapOpt f l = some bs ↔ List.Forall₂ (fun a b => f a = some b) l bs := by
  intro l
  induction l with
  | nil =>
    intro bs
    constructor
    · intro h
      simp only [mapOpt] at h
      cases h
      exact List.Forall₂.nil
    · intro h
      cases h
      rfl
  | cons a as ih =>
    intro bs
    constructor
    · intro h
      simp only [mapOpt] at h
      rcases hf : f a with _ | b
      · rw [hf] at h
        cases h
      · rw [hf] at h
        rcases hm : mapOpt f as with _ | bs2
        · rw [hm] at h
          cases h
        · rw [hm] at h
          cases h
          exact List.Forall₂.cons hf (ih.mp hm)
    · intro h
      cases h with
      | cons hf hrest =>
        simp only [mapOpt, hf, ih.mpr hrest]

theorem mapOpt_isSome {α β : Type} {f : α → Option β} :
    ∀ {l : List α}, (∀ a ∈ l, (f a).isSome) → ∃ bs, mapOpt f l = some bs := by
  intro l
  induction l with
  | nil =>
    intro _
    exact ⟨[], rfl⟩
  | cons a as ih =>
    intro h
    rcases Option.isSome_iff_exists.mp (h a (by simp)) with ⟨b, hb⟩
    rcases ih (fun x hx => h x (by simp [hx])) with ⟨bs, hbs⟩
    exact ⟨b :: bs, by simp only [mapOpt, hb, hbs]⟩

theorem cmpLawful_total {α : Type} {c : α → α → Ordering} (hc : CmpLawful c) (a b : α) :
    c a b ≠ .gt ∨ c b a ≠ .gt := by
  rcases h : c a b with h1 | h1 | h1
  · left
    simp
  · left
    simp
  · right
    rw [hc.1 b a, h]
    simp [Ordering.swap]

/-! Line splitting. -/

theorem splitLines_cons_endl (endl : Nat) (t : Bytes) :
    splitLines endl (endl :: t) = [endl] :: splitLines endl t := by
  simp [splitLines]

theorem splitLines_cons_ne {endl x : Nat} (t : Bytes) (h : x ≠ endl) :
    splitLines endl (x :: t) =
      match splitLines endl t with
      | [] => [[x]]
      | l :: ls => (x :: l) :: ls := by
  simp [splitLines, h]

theorem splitLines_eq_nil_iff {endl : Nat} : ∀ {bs : Bytes}, splitLines endl bs = [] ↔ bs = [] := by
  intro bs
  cases bs with
  | nil => simp [splitLines]
  | cons b rest =>
    simp only [splitLines]
    by_cases h : b = endl
    · simp [h]
    · rw [if_neg h]
      rcases h2 : splitLines endl rest with _ | ⟨l, ls⟩ <;> simp

theorem splitLines_flatten {endl : Nat} : ∀ bs : Bytes, (splitLines endl bs).flatten = bs := by
  intro bs
  induction bs with
  | nil => rfl
  | cons b rest ih =>
    simp only [splitLines]
    by_cases h : b = endl
    · rw [if_pos h, List.flatten_cons, ih, h]
      rfl
    · rw [if_neg h]
      rcases h2 : splitLines endl rest with _ | ⟨l, ls⟩
      · have : rest = [] := splitLines_eq_nil_iff.mp h2
        subst this
        rfl
      · rw [h2] at ih
        simp only [List.flatten_cons] at ih ⊢
        rw [List.cons_append, ih]

theorem splitLines_ne_nil {endl : Nat} : ∀ {bs : Bytes}, ∀ l ∈ splitLines endl bs, l ≠ [] := by
  intro bs
  induction bs with
  | nil =>
    intro l hl
    simp [splitLines] at hl
  | cons b rest ih =>
    intro l hl
    simp only [splitLines] at hl
    by_cases h : b = endl
    · rw [if_pos h] at hl
      rcases List.mem_cons.mp hl with h2 | h2
      · subst h2
        simp
      · exact ih l h2
    · rw [if_neg h] at hl
      rcases h2 : splitLines endl rest with _ | ⟨l0, ls⟩
      · rw [h2] at hl
        rcases List.mem_cons.mp hl with h3 | h3
        · subst h3
          simp
        · simp at h3
      · rw [h2] at hl
        rcases List.mem_cons.mp hl with h3 | h3
        · subst h3
          simp
        · exact ih l (by rw [h2] ; exact List.mem_cons_of_mem l0 h3)

theorem splitLines_append {endl : Nat} :
    ∀ (a b : Bytes), a ≠ [] → a.getLast? = some endl →
      splitLines endl (a ++ b) = splitLines endl a ++ splitLines endl b := by
  intro a
  induction a with
  | nil =>
    intro b h _
    exact absurd rfl h
  | cons x xs ih =>
    intro b _ hlast
    cases xs with
    | nil =>
      simp only [List.getLast?_singleton] at hlast
      have hx : x = endl := by
        injection hlast
      subst hx
      simp [splitLines]
    | cons y rest =>
      rw [List.getLast?_cons_cons] at hlast
      have hne : y :: rest ≠ [] := by simp
      have ih2 := ih b hne hlast
      by_cases h : x = endl
      · subst h
        rw [List.cons_append, splitLines_cons_endl, splitLines_cons_endl, ih2,
          List.cons_append]
      · have h3 : splitLines endl (y :: rest) ≠ [] := by
          rw [ne_eq, splitLines_eq_nil_iff]
          simp
        rcases h4 : splitLines endl (y :: rest) with _ | ⟨l0, ls⟩
        · exact absurd h4 h3
        · rw [List.cons_append, splitLines_cons_ne _ h, splitLines_cons_ne _ h, ih2, h4]
          simp

theorem splitLines_good {endl : Nat} :
    ∀ {bs : Bytes}, bs.getLast? = some endl →
      ∀ l ∈ splitLines endl bs, goodLine endl l := by
  intro bs
  induction bs with
  | nil =>
    intro h
    simp at h
  | cons x xs ih =>
    intro hlast l hl
    cases xs with
    | nil =>
      simp only [List.getLast?_singleton] at hlast
      have hx : x = endl := by injection hlast
      subst hx
      simp only [splitLines, if_pos rfl] at hl
      rcases List.mem_cons.mp hl with h2 | h2
      · subst h2
        exact ⟨by simp, by simp, by simp⟩
      · simp [splitLines] at h2
    | cons y rest =>
      rw [List.getLast?_cons_cons] at hlast
      by_cases h : x = endl
      · subst h
        rw [splitLines_cons_endl] at hl
        rcases List.mem_cons.mp hl with h2 | h2
        · subst h2
          exact ⟨by simp, by simp, by simp⟩
        · exact ih hlast l h2
      · rw [splitLines_cons_ne _ h] at hl
        have h3 : splitLines endl (y :: rest) ≠ [] := by
          rw [ne_eq, splitLines_eq_nil_iff]
          simp
        rcases h4 : splitLines endl (y :: rest) with _ | ⟨l0, ls⟩
        · exact absurd h4 h3
        · rw [h4] at hl
          have hgood0 : goodLine endl l0 := ih hlast l0 (by rw [h4] ; simp)
          rcases List.mem_cons.mp hl with h2 | h2
          · subst h2
            rcases hl0 : l0 with _ | ⟨z, zs⟩
            · exact absurd hl0 hgood0.1
            · rw [hl0] at hgood0
              refine ⟨by simp, ?_, ?_⟩
              · rw [List.getLast?_cons_cons]
                exact hgood0.2.1
              · intro w hw
                simp only [List.dropLast_cons₂] at hw
                rcases List.mem_cons.mp hw with h5 | h5
                · subst h5
                  exact h
                · exact hgood0.2.2 w h5
          · exact ih hlast l (by rw [h4] ; exact List.mem_cons_of_mem l0 h2)

theorem splitLines_single {endl : Nat} :
    ∀ {l : Bytes}, goodLine endl l → splitLines endl l = [l] := by
  intro l
  induction l with
  | nil =>
    intro h
    exact absurd rfl h.1
  | cons x xs ih =>
    intro h
    cases xs with
    | nil =>
      have hx : x = endl := by
        have h2 := h.2.1
        rw [List.getLast?_singleton] at h2
        injection h2
      subst hx
      simp [splitLines]
    | cons y rest =>
      have hx : x ≠ endl := by
        apply h.2.2
        simp [List.dropLast_cons₂]
      have hgood : goodLine endl (y :: rest) := by
        refine ⟨by simp, ?_, ?_⟩
        · rw [← List.getLast?_cons_cons (a := x)]
          exact h.2.1
        · intro w hw
          apply h.2.2
          simp only [List.dropLast_cons₂]
          exact List.mem_cons_of_mem x hw
      rw [splitLines_cons_ne _ hx, ih hgood]

theorem splitLines_flatten_eq {endl : Nat} :
    ∀ {ls : List Bytes}, (∀ l ∈ ls, goodLine endl l) →
      splitLines endl ls.flatten = ls := by
  intro ls
  induction ls with
  | nil =>
    intro _
    rfl
  | cons l rest ih =>
    intro h
    have hgood : goodLine endl l := h l (by simp)
    rw [List.flatten_cons, splitLines_append l rest.flatten hgood.1 hgood.2.1,
      splitLines_single hgood, ih (fun x hx => h x (List.mem_cons_of_mem l hx))]
    rfl

/-! Chunk enumeration. -/

theorem readUntil_le (endl : Nat) : ∀ bs : Bytes, readUntil endl bs ≤ bs.length := by
  intro bs
  induction bs with
  | nil => simp [readUntil]
  | cons b rest ih =>
    simp only [readUntil, List.length_cons]
    by_cases h : b = endl
    · rw [if_pos h]
      omega
    · rw [if_neg h]
      omega

theorem readUntil_pos (endl : Nat) : ∀ bs : Bytes, bs ≠ [] → 0 < readUntil endl bs := by
  intro bs h
  cases bs with
  | nil => exact absurd rfl h
  | cons b rest =>
    simp only [readUntil]
    by_cases h2 : b = endl
    · rw [if_pos h2]
      omega
    · rw [if_neg h2]
      omega

theorem readUntil_boundary (endl : Nat) :
    ∀ bs : Bytes, readUntil endl bs < bs.length →
      bs.getD (readUntil endl bs - 1) 0 = endl := by
  intro bs
  induction bs with
  | nil =>
    intro h
    simp [readUntil] at h
  | cons b rest ih =>
    intro h
    simp only [readUntil] at h ⊢
    by_cases h2 : b = endl
    · rw [if_pos h2]
      simpa using h2
    · rw [if_neg h2] at h ⊢
      have hrest : rest ≠ [] := by
        intro hh
        subst hh
        simp [readUntil] at h
      have hpos : 0 < readUntil endl rest := readUntil_pos endl rest hrest
      have h3 : readUntil endl rest < rest.length := by
        simp only [List.length_cons] at h
        omega
      have ih2 := ih h3
      have harith : 1 + readUntil endl rest - 1 = (readUntil endl rest - 1) + 1 := by omega
      rw [harith]
      simpa using ih2

theorem contiguous_le : ∀ (cl : List (Nat × Nat)) (s e : Nat), contiguous s e cl → s ≤ e := by
  intro cl
  induction cl with
  | nil =>
    intro s e h
    exact le_of_eq h
  | cons c rest ih =>
    intro s e h
    rcases c with ⟨o, l⟩
    rcases h with ⟨h1, h2, h3⟩
    have := ih (s + l) e h3
    omega

theorem chunksFrom_spec (file : Bytes) (jump endl : Nat) :
    ∀ (fuel pos : Nat), pos ≤ file.length → file.length - pos < fuel →
      contiguous pos file.length (chunksFrom file jump endl fuel pos) ∧
      boundariesOk file endl (chunksFrom file jump endl fuel pos) ∧
      (chunksFrom file jump endl fuel pos = [] ↔ pos = file.length) := by
  intro fuel
  induction fuel with
  | zero =>
    intro pos hpos hfuel
    omega
  | succ fuel ih =>
    intro pos hpos hfuel
    by_cases h0 : file.length - pos = 0
    · have hpe : pos = file.length := by omega
      simp only [chunksFrom, h0, if_pos rfl]
      exact ⟨hpe, trivial, by simp [hpe]⟩
    · by_cases h1 : file.length - pos ≤ jump
      · have hne : ¬(file.length - pos = 0) := h0
        simp only [chunksFrom, if_neg hne, if_pos h1]
        refine ⟨⟨rfl, by omega, ?_⟩, trivial, ?_⟩
        · show pos + (file.length - pos) = file.length
          omega
        constructor
        · intro hh
          cases hh
        · intro hh
          exact absurd hh (by omega)
      · have hne : ¬(file.length - pos = 0) := h0
        simp only [chunksFrom, if_neg hne, if_neg h1]
        set k := readUntil endl (file.drop (pos + jump)) with hk
        have hdl : (file.drop (pos + jump)).length = file.length - (pos + jump) := by
          simp
        have hkle : k ≤ file.length - (pos + jump) := by
          rw [hk, ← hdl]
          exact readUntil_le endl _
        have hkpos : 0 < jump + k := by
          by_cases hj : jump = 0
          · subst hj
            have hdropne : file.drop pos ≠ [] := by
              intro hh
              have := congrArg List.length hh
              simp at this
              omega
            have hp := readUntil_pos endl (file.drop pos) hdropne
            have hk0 : k = readUntil endl (file.drop pos) := by
              simpa using hk
            omega
          · omega
        set nxt := pos + jump + k with hnxt
        clear_value nxt
        clear_value k
        have hlt : pos < nxt := by omega
        have hle : nxt ≤ file.length := by omega
        have hih := ih nxt hle (by omega)
        refine ⟨⟨rfl, by omega, ?_⟩, ?_, ?_⟩
        · have h5 : pos + (nxt - pos) = nxt := by omega
          rw [h5]
          exact hih.1
        · rcases hrest : chunksFrom file jump endl fuel nxt with _ | ⟨c2, rest2⟩
          · exact trivial
          · constructor
            · have hnxtlt : nxt < file.length := by
                by_contra hcon
                have : nxt = file.length := by omega
                have := hih.2.2.mpr this
                rw [this] at hrest
                cases hrest
              have hklt : k < (file.drop (pos + jump)).length := by
                rw [hdl]
                omega
              have hb := readUntil_boundary endl (file.drop (pos + jump)) (by rw [← hk] ; exact hklt)
              rw [← hk] at hb
              have hk1 : 0 < k := by
                have hdropne2 : file.drop (pos + jump) ≠ [] := by
                  intro hh
                  have h8 := congrArg List.length hh
                  simp at h8
                  omega
                have h9 := readUntil_pos endl (file.drop (pos + jump)) hdropne2
                omega
              have harith : pos + (nxt - pos) - 1 = (pos + jump) + (k - 1) := by omega
              rw [harith]
              have hgd : (file.drop (pos + jump)).getD (k - 1) 0 =
                  file.getD (pos + jump + (k - 1)) 0 := by
                simp only [List.getD_eq_getElem?_getD, List.getElem?_drop]
              rw [← hgd]
              exact hb
            · rw [← hrest]
              exact hih.2.1
        · constructor
          · intro hh
            cases hh
          · intro hh
            exact absurd hh (by omega)

theorem chunks_contiguous (file : Bytes) (jump endl : Nat) :
    contiguous 0 file.length (chunks file jump endl) :=
  (chunksFrom_spec file jump endl (file.length + 1) 0 (by omega) (by omega)).1

theorem chunks_boundaries (file : Bytes) (jump endl : Nat) :
    boundariesOk file endl (chunks file jump endl) :=
  (chunksFrom_spec file jump endl (file.length + 1) 0 (by omega) (by omega)).2.1

theorem chunks_nil_iff (file : Bytes) (jump endl : Nat) :
    chunks file jump endl = [] ↔ file = [] := by
  have h := (chunksFrom_spec file jump endl (file.length + 1) 0 (by omega) (by omega)).2.2
  unfold chunks
  rw [h]
  constructor
  · intro hh
    cases file with
    | nil => rfl
    | cons b rest => simp at hh
  · intro hh
    subst hh
    rfl

theorem chunks_single (file : Bytes) (jump endl : Nat) (hne : file ≠ [])
    (hjump : file.length ≤ jump) : chunks file jump endl = [(0, file.length)] := by
  have hlen : file.length ≠ 0 := by
    intro h
    exact hne (List.length_eq_zero.mp h)
  unfold chunks chunksFrom
  simp only [Nat.sub_zero]
  rw [if_neg hlen, if_pos hjump]

theorem contiguous_slices (file : Bytes) :
    ∀ (cl : List (Nat × Nat)) (pos : Nat), contiguous pos file.length cl →
      (cl.map (sliceBytes file)).flatten = file.drop pos := by
  intro cl
  induction cl with
  | nil =>
    intro pos h
    have hpe : pos = file.length := h
    rw [List.map_nil, List.flatten_nil]
    symm
    exact List.drop_eq_nil_of_le (le_of_eq hpe.symm)
  | cons c rest ih =>
    intro pos h
    rcases c with ⟨o, l⟩
    rcases h with ⟨h1, h2, h3⟩
    subst h1
    rw [List.map_cons, List.flatten_cons, ih (o + l) h3]
    show (file.drop o).take l ++ file.drop (o + l) = file.drop o
    have : file.drop (o + l) = (file.drop o).drop l := by
      rw [List.drop_drop, Nat.add_comm]
    rw [this, List.take_append_drop]

theorem slice_getLast (file : Bytes) (o l : Nat) (hl : 0 < l)
    (hle : o + l ≤ file.length) :
    (sliceBytes file (o, l)).getLast? = some (file.getD (o + l - 1) 0) := by
  show ((file.drop o).take l).getLast? = _
  have hlen : ((file.drop o).take l).length = l := by
    simp
    omega
  rw [List.getLast?_eq_getElem?, hlen]
  have h1 : (((file.drop o).take l))[l - 1]? = (file.drop o)[l - 1]? := by
    rw [List.getElem?_take_of_lt]
    omega
  rw [h1, List.getElem?_drop]
  have h2 : o + (l - 1) < file.length := by omega
  rw [List.getElem?_eq_getElem h2]
  have h3 : o + l - 1 = o + (l - 1) := by omega
  rw [h3, List.getD_eq_getElem?_getD, List.getElem?_eq_getElem h2]
  rfl

theorem slice_ne_nil (file : Bytes) (o l : Nat) (hl : 0 < l) (hle : o + l ≤ file.length) :
    sliceBytes file (o, l) ≠ [] := by
  show (file.drop o).take l ≠ []
  intro h
  have := congrArg List.length h
  simp at this
  omega

theorem contiguous_lines (file : Bytes) (endl : Nat) :
    ∀ (cl : List (Nat × Nat)) (pos : Nat), contiguous pos file.length cl →
      boundariesOk file endl cl →
      ((cl.map fun c => splitLines endl (sliceBytes file c)).flatten =
        splitLines endl (file.drop pos)) := by
  intro cl
  induction cl with
  | nil =>
    intro pos h _
    have hpe : pos = file.length := h
    rw [List.map_nil, List.flatten_nil, List.drop_eq_nil_of_le (le_of_eq hpe.symm)]
    rfl
  | cons c rest ih =>
    intro pos hcont hbound
    rcases c with ⟨o, l⟩
    rcases hcont with ⟨h1, h2, h3⟩
    subst h1
    cases rest with
    | nil =>
      rcases h3 with h3
      rw [List.map_cons, List.map_nil, List.flatten_cons, List.flatten_nil,
        List.append_nil]
      have hfull : sliceBytes file (o, l) = file.drop o := by
        show (file.drop o).take l = file.drop o
        apply List.take_of_length_le
        have h4 : o + l = file.length := h3
        simp
        omega
      rw [hfull]
    | cons c2 rest2 =>
      have hple : o + l ≤ file.length := contiguous_le _ _ _ h3
      have hterm : (sliceBytes file (o, l)).getLast? = some endl := by
        rw [slice_getLast file o l h2 hple]
        exact congrArg some hbound.1
      have hne : sliceBytes file (o, l) ≠ [] := slice_ne_nil file o l h2 hple
      rw [List.map_cons, List.flatten_cons, ih (o + l) h3 hbound.2]
      have hsplit : file.drop o = sliceBytes file (o, l) ++ file.drop (o + l) := by
        show file.drop o = (file.drop o).take l ++ file.drop (o + l)
        have h5 : file.drop (o + l) = (file.drop o).drop l := by
          rw [List.drop_drop, Nat.add_comm]
        rw [h5, List.take_append_drop]
      rw [hsplit, splitLines_append _ _ hne hterm]

/-! Readers and the merge heap. -/

theorem parseLine_line {rng : RNG} {cfg : Config} {l : Bytes} {r : Rec}
    (h : parseLine rng cfg l = some r) : r.line = l := by
  unfold parseLine LineRecord.new at h
  rcases hf : cfg.fields with _ | ⟨f, rest⟩
  · rw [hf] at h
    rcases Option.map_eq_some'.mp h with ⟨ks, _, hr⟩
    rw [← hr]
  · rcases rest with _ | ⟨g, rest2⟩
    · rw [hf] at h
      dsimp only at h
      by_cases hi : f.index = 0
      · rw [if_pos hi] at h
        rcases Option.map_eq_some'.mp h with ⟨k, _, hr⟩
        rw [← hr]
      · rw [if_neg hi] at h
        rcases Option.map_eq_some'.mp h with ⟨ks, _, hr⟩
        rw [← hr]
    · rw [hf] at h
      rcases Option.map_eq_some'.mp h with ⟨ks, _, hr⟩
      rw [← hr]

theorem readerRecs_none {rng : RNG} {cfg : Config} {r : Reader}
    (hwf : RWF rng cfg r) (h : r.head = none) : readerRecs rng cfg r = [] := by
  unfold readerRecs
  rw [h, hwf.2.1 h]
  rfl

theorem readerRecs_some {rng : RNG} {cfg : Config} {r : Reader} {x : Rec}
    (h : r.head = some x) :
    readerRecs rng cfg r = x ::
      r.rest.filterMap (fun l =>
        match l with
        | .ioerr => none
        | .text bs => parseLine rng cfg bs) := by
  unfold readerRecs
  rw [h]
  rfl

theorem cmpReader_lawful (ord : Order) : CmpLawful (cmpReader ord) := by
  constructor
  · intro a b
    unfold cmpReader
    rcases ha : a.head with _ | x <;> rcases hb : b.head with _ | y <;>
      simp [Ordering.swap]
    exact (recCmp_lawful ord).1 y x
  · intro a b d hab hbd
    unfold cmpReader at hab hbd ⊢
    rcases ha : a.head with _ | x <;> rcases hb : b.head with _ | y <;>
      rcases hd : d.head with _ | z <;>
      rw [ha, hb] at hab <;> rw [hb, hd] at hbd <;>
      first
        | exact (by decide : (Ordering.eq : Ordering) ≠ Ordering.gt)
        | exact (by decide : (Ordering.lt : Ordering) ≠ Ordering.gt)
        | exact absurd rfl hab
        | exact absurd rfl hbd
        | exact (recCmp_lawful ord).2 z y x hbd hab

theorem popMaxGo_spec (ord : Order) :
    ∀ (xs : List Reader) (best : Reader) (acc : List Reader),
      List.Perm ((popMaxGo ord best acc xs).1 :: (popMaxGo ord best acc xs).2)
        (best :: (acc ++ xs)) ∧
      ((∀ y ∈ acc, cmpReader ord y best ≠ .gt) →
        ∀ y ∈ (popMaxGo ord best acc xs).2,
          cmpReader ord y (popMaxGo ord best acc xs).1 ≠ .gt) := by
  intro xs
  induction xs with
  | nil =>
    intro best acc
    constructor
    · simp only [popMaxGo, List.append_nil]
      exact (List.reverse_perm acc).cons best
    · intro h y hy
      simp only [popMaxGo] at hy
      exact h y (List.mem_reverse.mp hy)
  | cons x xs ih =>
    intro best acc
    by_cases h : cmpReader ord x best = .gt
    · have heq : popMaxGo ord best acc (x :: xs) = popMaxGo ord x (best :: acc) xs := by
        simp [popMaxGo, h]
      rw [heq]
      constructor
      · refine ((ih x (best :: acc)).1).trans ?_
        have h1 : List.Perm (x :: (best :: acc) ++ xs) (best :: x :: (acc ++ xs)) :=
          List.Perm.swap best x (acc ++ xs)
        refine h1.trans ?_
        exact (List.perm_middle.symm).cons best
      · intro hacc y hy
        refine (ih x (best :: acc)).2 ?_ y hy
        intro z hz
        rcases List.mem_cons.mp hz with hz2 | hz2
        · subst hz2
          rw [cmp_lt_of_gt (cmpReader_lawful ord) h]
          simp
        · exact (cmpReader_lawful ord).2 z best x (hacc z hz2)
            (by rw [cmp_lt_of_gt (cmpReader_lawful ord) h] ; simp)
    · have heq : popMaxGo ord best acc (x :: xs) = popMaxGo ord best (x :: acc) xs := by
        simp [popMaxGo, h]
      rw [heq]
      constructor
      · refine ((ih best (x :: acc)).1).trans ?_
        refine List.Perm.cons best ?_
        exact List.perm_middle.symm
      · intro hacc y hy
        refine (ih best (x :: acc)).2 ?_ y hy
        intro z hz
        rcases List.mem_cons.mp hz with hz2 | hz2
        · subst hz2
          exact h
        · exact hacc z hz2

theorem popMax_spec (ord : Order) (H : List Reader) (h : H ≠ []) :
    ∃ b rest, popMax ord H = some (b, rest) ∧ List.Perm H (b :: rest) ∧
      ∀ y ∈ rest, cmpReader ord y b ≠ .gt := by
  cases H with
  | nil => exact absurd rfl h
  | cons r rs =>
    have hs := popMaxGo_spec ord rs r []
    refine ⟨(popMaxGo ord r [] rs).1, (popMaxGo ord r [] rs).2, ?_, ?_, ?_⟩
    · unfold popMax
      rfl
    · exact (hs.1).symm
    · exact hs.2 (by intro y hy ; simp at hy)

theorem perm_flatten {α β : Type} (f : α → List β) {l1 l2 : List α}
    (h : List.Perm l1 l2) : List.Perm (l1.map f).flatten (l2.map f).flatten := by
  induction h with
  | nil => exact List.Perm.refl _
  | cons x _ ih =>
    simp only [List.map_cons, List.flatten_cons]
    exact ih.append_left (f x)
  | swap x y l =>
    simp only [List.map_cons, List.flatten_cons]
    rw [← List.append_assoc, ← List.append_assoc]
    exact (List.perm_append_comm).append_right _
  | trans _ _ ih1 ih2 => exact ih1.trans ih2

theorem heapMeasure_perm {H1 H2 : List Reader} (h : List.Perm H1 H2) :
    heapMeasure H1 = heapMeasure H2 := by
  unfold heapMeasure
  rw [(h.map readerMeasure).sum_eq, h.length_eq]

/-! Batch loop and final drain. -/

theorem filterMap_text_cons (rng : RNG) (cfg : Config) (l : Bytes) (q : Rec)
    (rest : List RLine) (hq : parseLine rng cfg l = some q) :
    (RLine.text l :: rest).filterMap
        (fun l2 =>
          match l2 with
          | RLine.ioerr => none
          | RLine.text bs => parseLine rng cfg bs) =
      q :: rest.filterMap
        (fun l2 =>
          match l2 with
          | RLine.ioerr => none
          | RLine.text bs => parseLine rng cfg bs) := by
  simp only [List.filterMap_cons]
  rw [hq]

theorem drainBatch_spec (rng : RNG) (cfg : Config) (rm : Bool) (top : Reader) (t : Rec)
    (ht : top.head = some t) :
    ∀ (fuel : Nat) (cur : Reader), RWF rng cfg cur → readerMeasure cur < fuel →
      ∃ E R2,
        readerRecs rng cfg cur = E ++ R2 ∧
        (drainBatch rng cfg rm top fuel cur).1 = E.map Rec.line ∧
        (∀ e ∈ E, recCmp cfg.ord e t ≠ .gt) ∧
        ((∃ cur2 r0 rest0,
            (drainBatch rng cfg rm top fuel cur).2.2 = some cur2 ∧
            (drainBatch rng cfg rm top fuel cur).2.1 = [] ∧
            RWF rng cfg cur2 ∧ cur2.id = cur.id ∧
            readerRecs rng cfg cur2 = R2 ∧ R2 = r0 :: rest0 ∧ cur2.head = some r0 ∧
            recCmp cfg.ord r0 t = .gt ∧
            readerMeasure cur2 + E.length ≤ readerMeasure cur) ∨
          ((drainBatch rng cfg rm top fuel cur).2.2 = none ∧ R2 = [] ∧
            (drainBatch rng cfg rm top fuel cur).2.1 = (if rm then [cur.id] else []))) := by
  intro fuel
  induction fuel with
  | zero =>
    intro cur _ hm
    omega
  | succ fuel ih =>
    intro cur hwf hm
    obtain ⟨cid, chead, crest⟩ := cur
    rcases chead with _ | x
    · have hrest : crest = [] := hwf.2.1 rfl
      subst hrest
      have hcmp : cmpReader cfg.ord ⟨cid, none, []⟩ top = .gt := by
        unfold cmpReader
        rw [ht]
      have heq : drainBatch rng cfg rm top (fuel + 1) ⟨cid, none, []⟩ =
          ([], if rm then [cid] else [], none) := by
        simp only [drainBatch, Reader.lineRecord]
        rw [if_neg (by rw [hcmp] ; decide)]
      refine ⟨[], [], ?_, ?_, ?_, Or.inr ?_⟩
      · rw [readerRecs_none hwf rfl]
        rfl
      · rw [heq]
        rfl
      · intro e he
        simp at he
      · rw [heq]
        exact ⟨rfl, rfl, rfl⟩
    · by_cases hlt : cmpReader cfg.ord ⟨cid, some x, crest⟩ top = .lt
      · have heq : drainBatch rng cfg rm top (fuel + 1) ⟨cid, some x, crest⟩ =
            ([], [], some ⟨cid, some x, crest⟩) := by
          simp only [drainBatch]
          rw [if_pos hlt]
        have hgt : recCmp cfg.ord x t = .gt := by
          have h2 : cmpReader cfg.ord ⟨cid, some x, crest⟩ top = recCmp cfg.ord t x := by
            unfold cmpReader
            rw [ht]
          rw [h2] at hlt
          exact cmp_gt_of_lt (recCmp_lawful cfg.ord) hlt
        refine ⟨[], readerRecs rng cfg ⟨cid, some x, crest⟩, by simp, ?_, ?_,
          Or.inl ⟨⟨cid, some x, crest⟩, x, _, ?_, ?_, hwf, rfl, rfl,
            readerRecs_some rfl, rfl, hgt, by simp⟩⟩
        · rw [heq]
          rfl
        · intro e he
          simp at he
        · rw [heq]
        · rw [heq]
      · have hle : recCmp cfg.ord x t ≠ .gt := by
          intro hgt
          apply hlt
          have h2 : cmpReader cfg.ord ⟨cid, some x, crest⟩ top = recCmp cfg.ord t x := by
            unfold cmpReader
            rw [ht]
          rw [h2]
          exact cmp_lt_of_gt (recCmp_lawful cfg.ord) hgt
        rcases crest with _ | ⟨rl, rest2⟩
        · have hlr : Reader.lineRecord rng cfg ⟨cid, some x, []⟩ =
              (some x, ⟨cid, none, []⟩) := rfl
          have heq : drainBatch rng cfg rm top (fuel + 1) ⟨cid, some x, []⟩ =
              (x.line :: (drainBatch rng cfg rm top fuel ⟨cid, none, []⟩).1,
                (drainBatch rng cfg rm top fuel ⟨cid, none, []⟩).2.1,
                (drainBatch rng cfg rm top fuel ⟨cid, none, []⟩).2.2) := by
            simp only [drainBatch, Reader.lineRecord]
            rw [if_neg hlt]
          have hwf2 : RWF rng cfg ⟨cid, none, []⟩ := by
            refine ⟨?_, ?_, ?_⟩
            · intro l hl
              simp at hl
            · intro _
              rfl
            · intro rc hrc
              cases hrc
          have hm2 : readerMeasure (⟨cid, none, []⟩ : Reader) < fuel := by
            unfold readerMeasure at hm ⊢
            simp at hm ⊢
            omega
          rcases ih ⟨cid, none, []⟩ hwf2 hm2 with ⟨E2, R2, hsplit, hout, hE2, hdisj⟩
          have hnil : readerRecs rng cfg (⟨cid, none, []⟩ : Reader) = [] :=
            readerRecs_none hwf2 rfl
          rw [hnil] at hsplit
          have hE2nil : E2 = [] := by
            cases E2 with
            | nil => rfl
            | cons a as => simp at hsplit
          have hR2nil : R2 = [] := by
            cases R2 with
            | nil => rfl
            | cons a as =>
              rw [hE2nil] at hsplit
              simp at hsplit
          subst hE2nil
          subst hR2nil
          rcases hdisj with ⟨cur2, r0, rest0, _, _, _, _, _, hcons, _⟩ | ⟨hnone, _, hrm⟩
          · cases hcons
          · refine ⟨[x], [], ?_, ?_, ?_, Or.inr ?_⟩
            · rw [readerRecs_some rfl]
              rfl
            · rw [heq, hout]
              rfl
            · intro e he
              rcases List.mem_cons.mp he with he2 | he2
              · subst he2
                exact hle
              · simp at he2
            · rw [heq]
              exact ⟨hnone, rfl, hrm⟩
        · have hpt : parsesText rng cfg rl = true := hwf.1 rl (by simp)
          rcases rl with _ | l
          · simp [parsesText] at hpt
          · rcases Option.isSome_iff_exists.mp (by simpa [parsesText] using hpt) with ⟨q, hq⟩
            have hlr : Reader.lineRecord rng cfg ⟨cid, some x, .text l :: rest2⟩ =
                (some x, ⟨cid, some q, rest2⟩) := by
              show ((some x : Option Rec), (⟨cid, parseLine rng cfg l, rest2⟩ : Reader)) =
                (some x, (⟨cid, some q, rest2⟩ : Reader))
              rw [hq]
            have heq : drainBatch rng cfg rm top (fuel + 1) ⟨cid, some x, .text l :: rest2⟩ =
                (x.line :: (drainBatch rng cfg rm top fuel ⟨cid, some q, rest2⟩).1,
                  (drainBatch rng cfg rm top fuel ⟨cid, some q, rest2⟩).2.1,
                  (drainBatch rng cfg rm top fuel ⟨cid, some q, rest2⟩).2.2) := by
              simp only [drainBatch]
              rw [if_neg hlt, hlr]
            have hwf2 : RWF rng cfg ⟨cid, some q, rest2⟩ := by
              refine ⟨?_, ?_, ?_⟩
              · intro l2 hl2
                exact hwf.1 l2 (by simp [hl2])
              · intro hh
                cases hh
              · intro rc hrc
                cases hrc
                rw [parseLine_line hq]
                exact hq
            have hm2 : readerMeasure (⟨cid, some q, rest2⟩ : Reader) < fuel := by
              unfold readerMeasure at hm ⊢
              simp at hm ⊢
              omega
            rcases ih ⟨cid, some q, rest2⟩ hwf2 hm2 with ⟨E2, R2, hsplit, hout, hE2, hdisj⟩
            have hrecs : readerRecs rng cfg (⟨cid, some x, .text l :: rest2⟩ : Reader) =
                x :: readerRecs rng cfg (⟨cid, some q, rest2⟩ : Reader) := by
              rw [readerRecs_some rfl, readerRecs_some rfl,
                filterMap_text_cons rng cfg l q rest2 hq]
            refine ⟨x :: E2, R2, ?_, ?_, ?_, ?_⟩
            · rw [hrecs, hsplit]
              rfl
            · rw [heq, hout]
              rfl
            · intro e he
              rcases List.mem_cons.mp he with he2 | he2
              · subst he2
                exact hle
              · exact hE2 e he2
            · have hmlt : readerMeasure (⟨cid, some q, rest2⟩ : Reader) + 2 ≤
                  readerMeasure (⟨cid, some x, .text l :: rest2⟩ : Reader) := by
                unfold readerMeasure
                simp
                omega
              rcases hdisj with ⟨cur2, r0, rest0, ha1, ha2, ha3, ha4, ha5, ha6, ha7, ha8, ha9⟩ |
                ⟨hb1, hb2, hb3⟩
              · refine Or.inl ⟨cur2, r0, rest0, ?_, ?_, ha3, ha4, ha5, ha6, ha7, ha8, ?_⟩
                · rw [heq]
                  exact ha1
                · rw [heq]
                  exact ha2
                · simp only [List.length_cons]
                  omega
              · refine Or.inr ⟨?_, hb2, ?_⟩
                · rw [heq]
                  exact hb1
                · rw [heq]
                  exact hb3

theorem drainAll_spec (rng : RNG) (cfg : Config) :
    ∀ (fuel : Nat) (cur : Reader), RWF rng cfg cur → readerMeasure cur < fuel →
      (drainAll rng cfg fuel cur).1 = (readerRecs rng cfg cur).map Rec.line ∧
      (drainAll rng cfg fuel cur).2 = [cur.id] := by
  intro fuel
  induction fuel with
  | zero =>
    intro cur _ hm
    omega
  | succ fuel ih =>
    intro cur hwf hm
    obtain ⟨cid, chead, crest⟩ := cur
    rcases chead with _ | x
    · have hrest : crest = [] := hwf.2.1 rfl
      subst hrest
      constructor
      · rw [readerRecs_none hwf rfl]
        rfl
      · rfl
    · rcases crest with _ | ⟨rl, rest2⟩
      · have hwf2 : RWF rng cfg ⟨cid, none, []⟩ := by
          refine ⟨?_, ?_, ?_⟩
          · intro l hl
            simp at hl
          · intro _
            rfl
          · intro rc hrc
            cases hrc
        have hm2 : readerMeasure (⟨cid, none, []⟩ : Reader) < fuel := by
          unfold readerMeasure at hm ⊢
          simp at hm ⊢
          omega
        have hih := ih ⟨cid, none, []⟩ hwf2 hm2
        have heq : drainAll rng cfg (fuel + 1) ⟨cid, some x, []⟩ =
            (x.line :: (drainAll rng cfg fuel ⟨cid, none, []⟩).1,
              (drainAll rng cfg fuel ⟨cid, none, []⟩).2) := by
          simp only [drainAll, Reader.lineRecord]
        rw [heq, hih.1, hih.2, readerRecs_none hwf2 rfl, readerRecs_some rfl]
        exact ⟨rfl, rfl⟩
      · have hpt : parsesText rng cfg rl = true := hwf.1 rl (by simp)
        rcases rl with _ | l
        · simp [parsesText] at hpt
        · rcases Option.isSome_iff_exists.mp (by simpa [parsesText] using hpt) with ⟨q, hq⟩
          have hwf2 : RWF rng cfg ⟨cid, some q, rest2⟩ := by
            refine ⟨?_, ?_, ?_⟩
            · intro l2 hl2
              exact hwf.1 l2 (by simp [hl2])
            · intro hh
              cases hh
            · intro rc hrc
              cases hrc
              rw [parseLine_line hq]
              exact hq
          have hm2 : readerMeasure (⟨cid, some q, rest2⟩ : Reader) < fuel := by
            unfold readerMeasure at hm ⊢
            simp at hm ⊢
            omega
          have hih := ih ⟨cid, some q, rest2⟩ hwf2 hm2
          have heq : drainAll rng cfg (fuel + 1) ⟨cid, some x, .text l :: rest2⟩ =
              (x.line :: (drainAll rng cfg fuel ⟨cid, some q, rest2⟩).1,
                (drainAll rng cfg fuel ⟨cid, some q, rest2⟩).2) := by
            simp only [drainAll, Reader.lineRecord]
            rw [hq]
          have hrecs : readerRecs rng cfg (⟨cid, some x, .text l :: rest2⟩ : Reader) =
              x :: readerRecs rng cfg (⟨cid, some q, rest2⟩ : Reader) := by
            rw [readerRecs_some rfl, readerRecs_some rfl,
              filterMap_text_cons rng cfg l q rest2 hq]
          rw [heq, hih.1, hih.2, hrecs]
          exact ⟨rfl, rfl⟩

/-! Merge loop correctness. -/

theorem head_some_of_le {ord : Order} {cur y : Reader} {x : Rec} (hx : cur.head = some x)
    (h : cmpReader ord y cur ≠ .gt) : ∃ hy, y.head = some hy := by
  rcases h2 : y.head with _ | hy
  · exact absurd (by unfold cmpReader ; rw [h2, hx]) h
  · exact ⟨hy, rfl⟩

theorem cmpReader_le {ord : Order} {y top : Reader} {hy t : Rec} (h1 : y.head = some hy)
    (h2 : top.head = some t) (h : cmpReader ord y top ≠ .gt) : recCmp ord t hy ≠ .gt := by
  intro hgt
  apply h
  unfold cmpReader
  rw [h1, h2]
  exact hgt

theorem head_le_recs {rng : RNG} {cfg : Config} {ord : Order} {r : Reader} {hy : Rec}
    (hh : r.head = some hy) (hp : (readerRecs rng cfg r).Pairwise (leRec ord)) :
    ∀ p ∈ readerRecs rng cfg r, leRec ord hy p := by
  intro p hmem
  rw [readerRecs_some hh] at hmem hp
  rcases List.mem_cons.mp hmem with h2 | h2
  · subst h2
    show recCmp ord p p ≠ .gt
    rw [cmpLawful_refl (recCmp_lawful ord) p]
    decide
  · exact (List.pairwise_cons.mp hp).1 p h2

theorem mergeLoop_spec (rng : RNG) (cfg : Config) (rm : Bool) :
    ∀ (fuel : Nat) (H : List Reader), heapMeasure H < fuel →
      (∀ r ∈ H, RWF rng cfg r) →
      (∀ r ∈ H, (readerRecs rng cfg r).Pairwise (leRec cfg.ord)) →
      ∃ E,
        (mergeLoop rng cfg rm fuel H).1 = E.map Rec.line ∧
        List.Perm ((H.map (readerRecs rng cfg)).flatten)
          (E ++ (((mergeLoop rng cfg rm fuel H).2.2).map (readerRecs rng cfg)).flatten) ∧
        E.Pairwise (leRec cfg.ord) ∧
        (∀ e ∈ E, ∀ r2 ∈ (mergeLoop rng cfg rm fuel H).2.2,
          ∀ p ∈ readerRecs rng cfg r2, leRec cfg.ord e p) ∧
        (∀ r2 ∈ (mergeLoop rng cfg rm fuel H).2.2, RWF rng cfg r2 ∧
          (readerRecs rng cfg r2).Pairwise (leRec cfg.ord)) ∧
        (1 < H.length → (mergeLoop rng cfg rm fuel H).2.2.length = 1) ∧
        (H.length ≤ 1 → (mergeLoop rng cfg rm fuel H).2.2 = H ∧ E = []) := by
  intro fuel
  induction fuel with
  | zero =>
    intro H hm _ _
    omega
  | succ fuel ih =>
    intro H hm hwf hsort
    by_cases hlen : H.length ≤ 1
    · have heq : mergeLoop rng cfg rm (fuel + 1) H = ([], [], H) := by
        simp only [mergeLoop]
        rw [if_pos hlen]
      refine ⟨[], ?_, ?_, ?_, ?_, ?_, ?_, ?_⟩
      · rw [heq]
        rfl
      · rw [heq]
        exact List.Perm.refl _
      · simp
      · intro e he
        simp at he
      · intro r2 hr2
        rw [heq] at hr2
        exact ⟨hwf r2 hr2, hsort r2 hr2⟩
      · intro hh
        omega
      · intro _
        rw [heq]
        exact ⟨rfl, rfl⟩
    · have hne : H ≠ [] := by
        intro hh
        subst hh
        simp at hlen
      obtain ⟨cur, rest, hpop, hperm, hmax⟩ := popMax_spec cfg.ord H hne
      have hlenH : rest.length + 1 = H.length := by
        have := hperm.length_eq
        simp at this
        omega
      have hrestne : rest ≠ [] := by
        intro hh
        subst hh
        simp at hlenH
        omega
      obtain ⟨top, rest2, hpop2, hperm2, hmax2⟩ := popMax_spec cfg.ord rest hrestne
      have hcurH : cur ∈ H := hperm.mem_iff.mpr (by simp)
      have htopH : top ∈ rest := hperm2.mem_iff.mpr (by simp)
      have hwfrest : ∀ r ∈ rest, RWF rng cfg r := by
        intro r hr
        exact hwf r (hperm.mem_iff.mpr (by simp [hr]))
      have hsortrest : ∀ r ∈ rest, (readerRecs rng cfg r).Pairwise (leRec cfg.ord) := by
        intro r hr
        exact hsort r (hperm.mem_iff.mpr (by simp [hr]))
      have hmeasH : heapMeasure H = readerMeasure cur + heapMeasure rest + 2 := by
        rw [heapMeasure_perm hperm]
        unfold heapMeasure
        simp
        omega
      rcases hhcur : cur.head with _ | x
      · -- the popped reader is empty: it is dropped at once
        have hcwf : RWF rng cfg cur := hwf cur hcurH
        have hcrest : cur.rest = [] := hcwf.2.1 hhcur
        have hd : drainBatch rng cfg rm top (readerMeasure cur + 1) cur =
            ([], if rm then [cur.id] else [], none) := by
          have hc : cmpReader cfg.ord cur top ≠ .lt := by
            unfold cmpReader
            rw [hhcur]
            rcases top.head with _ | y
            · exact (by decide : (Ordering.eq : Ordering) ≠ .lt)
            · exact (by decide : (Ordering.gt : Ordering) ≠ .lt)
          obtain ⟨cid, chead, crest⟩ := cur
          obtain rfl : chead = none := hhcur
          obtain rfl : crest = [] := hcrest
          simp only [drainBatch, Reader.lineRecord]
          rw [if_neg hc]
        have heq : mergeLoop rng cfg rm (fuel + 1) H =
            ((drainBatch rng cfg rm top (readerMeasure cur + 1) cur).1 ++
              (mergeLoop rng cfg rm fuel rest).1,
             (drainBatch rng cfg rm top (readerMeasure cur + 1) cur).2.1 ++
              (mergeLoop rng cfg rm fuel rest).2.1,
             (mergeLoop rng cfg rm fuel rest).2.2) := by
          simp only [mergeLoop]
          rw [if_neg hlen]
          simp only [hpop, hpop2]
          rw [hd]
        have hmrest : heapMeasure rest < fuel := by omega
        obtain ⟨E2, hout2, hperm2f, hpair2, hcross2, hwf2, hlen2, hsmall2⟩ :=
          ih rest hmrest hwfrest hsortrest
        have hcrecs : readerRecs rng cfg cur = [] := readerRecs_none hcwf hhcur
        have hflat : List.Perm ((H.map (readerRecs rng cfg)).flatten)
            ((rest.map (readerRecs rng cfg)).flatten) := by
          refine (perm_flatten (readerRecs rng cfg) hperm).trans ?_
          simp only [List.map_cons, List.flatten_cons, hcrecs, List.nil_append]
          exact List.Perm.refl _
        refine ⟨E2, ?_, ?_, hpair2, ?_, ?_, ?_, ?_⟩
        · rw [heq, hd, hout2]
          rfl
        · rw [heq]
          exact hflat.trans hperm2f
        · intro e he r2 hr2 p hp
          rw [heq] at hr2
          exact hcross2 e he r2 hr2 p hp
        · intro r2 hr2
          rw [heq] at hr2
          exact hwf2 r2 hr2
        · intro _
          rw [heq]
          by_cases hr1 : rest.length ≤ 1
          · rw [(hsmall2 hr1).1]
            omega
          · exact hlen2 (by omega)
        · intro hh
          omega
      · -- the popped reader has the smallest head
        have hnoempty : ∀ y ∈ rest, ∃ hy, y.head = some hy := by
          intro y hy
          exact head_some_of_le hhcur (hmax y hy)
        obtain ⟨t, htop⟩ := hnoempty top htopH
        have hcwf : RWF rng cfg cur := hwf cur hcurH
        have hcurnlt : recCmp cfg.ord x t ≠ .gt := cmpReader_le htop hhcur (hmax top htopH)
        have htle : ∀ y ∈ rest, ∀ p ∈ readerRecs rng cfg y, leRec cfg.ord t p := by
          intro y hy p hp
          obtain ⟨hyh, hyhead⟩ := hnoempty y hy
          have h1 : recCmp cfg.ord t hyh ≠ .gt := by
            have hytop : cmpReader cfg.ord y top ≠ .gt := by
              rcases List.mem_cons.mp (hperm2.mem_iff.mp hy) with h2 | h2
              · subst h2
                rw [cmpLawful_refl (cmpReader_lawful cfg.ord) y]
                decide
              · exact hmax2 y h2
            exact cmpReader_le hyhead htop hytop
          have h2 := head_le_recs hyhead (hsortrest y hy) p hp
          exact (recCmp_lawful cfg.ord).2 t hyh p h1 h2
        obtain ⟨E1, R2, hsplit1, hout1, hE1le, hdisj⟩ :=
          drainBatch_spec rng cfg rm top t htop (readerMeasure cur + 1) cur hcwf (by omega)
        rcases hdisj with
          ⟨cur2, r0, rest0, hd22, hd21, hwfc2, hid2, hrecs2, hR2c, hhead2, hr0gt, hmeas2⟩ |
          ⟨hd22, hR2nil, hd21⟩
        · -- reader pushed back
          have hE1ne : E1 ≠ [] := by
            intro hh
            subst hh
            rw [readerRecs_some hhcur] at hsplit1
            simp only [List.nil_append] at hsplit1
            rw [hR2c] at hsplit1
            have : x = r0 := by
              injection hsplit1 with h1 _
            subst this
            exact hcurnlt hr0gt
          have heq : mergeLoop rng cfg rm (fuel + 1) H =
              ((drainBatch rng cfg rm top (readerMeasure cur + 1) cur).1 ++
                (mergeLoop rng cfg rm fuel (cur2 :: rest)).1,
               (drainBatch rng cfg rm top (readerMeasure cur + 1) cur).2.1 ++
                (mergeLoop rng cfg rm fuel (cur2 :: rest)).2.1,
               (mergeLoop rng cfg rm fuel (cur2 :: rest)).2.2) := by
            simp only [mergeLoop]
            rw [if_neg hlen]
            simp only [hpop, hpop2]
            rw [hd22]
          have hmeaslt : readerMeasure cur2 < readerMeasure cur := by
            have h3 : 1 ≤ E1.length := by
              cases E1 with
              | nil => exact absurd rfl hE1ne
              | cons a as => simp
            omega
          have hm2 : heapMeasure (cur2 :: rest) < fuel := by
            unfold heapMeasure at hmeasH ⊢
            simp only [List.map_cons, List.sum_cons, List.length_cons] at hmeasH ⊢
            unfold heapMeasure at hm
            omega
          have hwfall : ∀ r ∈ cur2 :: rest, RWF rng cfg r := by
            intro r hr
            rcases List.mem_cons.mp hr with h2 | h2
            · subst h2
              exact hwfc2
            · exact hwfrest r h2
          have hsortall : ∀ r ∈ cur2 :: rest, (readerRecs rng cfg r).Pairwise (leRec cfg.ord) := by
            intro r hr
            rcases List.mem_cons.mp hr with h2 | h2
            · subst h2
              rw [hrecs2]
              refine List.Pairwise.sublist ?_ (hsort cur hcurH)
              rw [hsplit1]
              exact List.sublist_append_right E1 R2
            · exact hsortrest r h2
          obtain ⟨E2, hout2, hperm2f, hpair2, hcross2, hwf2, hlen2, hsmall2⟩ :=
            ih (cur2 :: rest) hm2 hwfall hsortall
          have hE1pair : E1.Pairwise (leRec cfg.ord) := by
            refine List.Pairwise.sublist ?_ (hsort cur hcurH)
            rw [hsplit1]
            exact List.sublist_append_left E1 R2
          have htle2 : ∀ p ∈ ((cur2 :: rest).map (readerRecs rng cfg)).flatten,
              leRec cfg.ord t p := by
            intro p hp
            simp only [List.map_cons, List.flatten_cons] at hp
            rcases List.mem_append.mp hp with h2 | h2
            · rw [hrecs2, hR2c] at h2
              have hr0le : leRec cfg.ord r0 p := by
                rcases List.mem_cons.mp h2 with h3 | h3
                · subst h3
                  show recCmp cfg.ord p p ≠ .gt
                  rw [cmpLawful_refl (recCmp_lawful cfg.ord) p]
                  decide
                · have hpair : (r0 :: rest0).Pairwise (leRec cfg.ord) := by
                    rw [← hR2c, ← hrecs2]
                    exact hsortall cur2 (by simp)
                  exact (List.pairwise_cons.mp hpair).1 p h3
              have htr0 : leRec cfg.ord t r0 := by
                show recCmp cfg.ord t r0 ≠ .gt
                rw [cmp_lt_of_gt (recCmp_lawful cfg.ord) hr0gt]
                decide
              exact (recCmp_lawful cfg.ord).2 t r0 p htr0 hr0le
            · rcases List.mem_flatten.mp h2 with ⟨lr, hlr, hplr⟩
              rcases List.mem_map.mp hlr with ⟨y, hy, hyeq⟩
              subst hyeq
              exact htle y hy p hplr
          have hflatH : List.Perm ((H.map (readerRecs rng cfg)).flatten)
              (E1 ++ ((cur2 :: rest).map (readerRecs rng cfg)).flatten) := by
            refine (perm_flatten (readerRecs rng cfg) hperm).trans ?_
            simp only [List.map_cons, List.flatten_cons]
            rw [hsplit1, hrecs2, List.append_assoc]
          refine ⟨E1 ++ E2, ?_, ?_, ?_, ?_, ?_, ?_, ?_⟩
          · rw [heq, hout1, hout2, List.map_append]
          · rw [heq]
            refine hflatH.trans ?_
            rw [List.append_assoc]
            exact (hperm2f.append_left E1)
          · rw [List.pairwise_append]
            refine ⟨hE1pair, hpair2, ?_⟩
            intro a ha b hb
            have hat : leRec cfg.ord a t := hE1le a ha
            have hbmem : b ∈ ((cur2 :: rest).map (readerRecs rng cfg)).flatten := by
              exact (hperm2f.symm).mem_iff.mp (List.mem_append.mpr (Or.inl hb))
            exact (recCmp_lawful cfg.ord).2 a t b hat (htle2 b hbmem)
          · intro e he r2 hr2 p hp
            rw [heq] at hr2
            rcases List.mem_append.mp he with h2 | h2
            · have hpmem : p ∈ ((cur2 :: rest).map (readerRecs rng cfg)).flatten := by
                refine (hperm2f.symm).mem_iff.mp ?_
                refine List.mem_append.mpr (Or.inr ?_)
                exact List.mem_flatten.mpr ⟨readerRecs rng cfg r2, List.mem_map.mpr ⟨r2, hr2, rfl⟩, hp⟩
              exact (recCmp_lawful cfg.ord).2 e t p (hE1le e h2) (htle2 p hpmem)
            · exact hcross2 e h2 r2 hr2 p hp
          · intro r2 hr2
            rw [heq] at hr2
            exact hwf2 r2 hr2
          · intro _
            rw [heq]
            exact hlen2 (by simp ; omega)
          · intro hh
            omega
        · -- reader exhausted and dropped
          have heq : mergeLoop rng cfg rm (fuel + 1) H =
              ((drainBatch rng cfg rm top (readerMeasure cur + 1) cur).1 ++
                (mergeLoop rng cfg rm fuel rest).1,
               (drainBatch rng cfg rm top (readerMeasure cur + 1) cur).2.1 ++
                (mergeLoop rng cfg rm fuel rest).2.1,
               (mergeLoop rng cfg rm fuel rest).2.2) := by
            simp only [mergeLoop]
            rw [if_neg hlen]
            simp only [hpop, hpop2]
            rw [hd22]
          have hmrest : heapMeasure rest < fuel := by omega
          obtain ⟨E2, hout2, hperm2f, hpair2, hcross2, hwf2, hlen2, hsmall2⟩ :=
            ih rest hmrest hwfrest hsortrest
          have hE1pair : E1.Pairwise (leRec cfg.ord) := by
            refine List.Pairwise.sublist ?_ (hsort cur hcurH)
            rw [hsplit1]
            exact List.sublist_append_left E1 R2
          have hcrecs : readerRecs rng cfg cur = E1 := by
            rw [hsplit1, hR2nil, List.append_nil]
          have htle2 : ∀ p ∈ (rest.map (readerRecs rng cfg)).flatten,
              leRec cfg.ord t p := by
            intro p hp
            rcases List.mem_flatten.mp hp with ⟨lr, hlr, hplr⟩
            rcases List.mem_map.mp hlr with ⟨y, hy, hyeq⟩
            subst hyeq
            exact htle y hy p hplr
          have hflatH : List.Perm ((H.map (readerRecs rng cfg)).flatten)
              (E1 ++ (rest.map (readerRecs rng cfg)).flatten) := by
            refine (perm_flatten (readerRecs rng cfg) hperm).trans ?_
            simp only [List.map_cons, List.flatten_cons]
            rw [hcrecs]
          refine ⟨E1 ++ E2, ?_, ?_, ?_, ?_, ?_, ?_, ?_⟩
          · rw [heq, hout1, hout2, List.map_append]
          · rw [heq]
            refine hflatH.trans ?_
            rw [List.append_assoc]
            exact (hperm2f.append_left E1)
          · rw [List.pairwise_append]
            refine ⟨hE1pair, hpair2, ?_⟩
            intro a ha b hb
            have hat : leRec cfg.ord a t := hE1le a ha
            have hbmem : b ∈ (rest.map (readerRecs rng cfg)).flatten :=
              (hperm2f.symm).mem_iff.mp (List.mem_append.mpr (Or.inl hb))
            exact (recCmp_lawful cfg.ord).2 a t b hat (htle2 b hbmem)
          · intro e he r2 hr2 p hp
            rw [heq] at hr2
            rcases List.mem_append.mp he with h2 | h2
            · have hpmem : p ∈ (rest.map (readerRecs rng cfg)).flatten := by
                refine (hperm2f.symm).mem_iff.mp ?_
                refine List.mem_append.mpr (Or.inr ?_)
                exact List.mem_flatten.mpr ⟨readerRecs rng cfg r2, List.mem_map.mpr ⟨r2, hr2, rfl⟩, hp⟩
              exact (recCmp_lawful cfg.ord).2 e t p (hE1le e h2) (htle2 p hpmem)
            · exact hcross2 e h2 r2 hr2 p hp
          · intro r2 hr2
            rw [heq] at hr2
            exact hwf2 r2 hr2
          · intro _
            rw [heq]
            by_cases hr1 : rest.length ≤ 1
            · rw [(hsmall2 hr1).1]
              omega
            · exact hlen2 (by omega)
          · intro hh
            omega

/-! Merge engine correctness. -/

theorem isText_of_parses {rng : RNG} {cfg : Config} {l : RLine}
    (h : parsesText rng cfg l = true) : RLine.isText l = true := by
  cases l
  · simp [parsesText] at h
  · rfl

theorem readerNew_spec (rng : RNG) (cfg : Config) (f : RunFile)
    (hwl : ∀ l ∈ f.lines, parsesText rng cfg l = true) :
    ∃ r, Reader.new rng cfg f = some r ∧ RWF rng cfg r ∧ r.id = f.id ∧
      readerRecs rng cfg r = runRecs rng cfg f := by
  rcases f with ⟨fid, lines⟩
  rcases lines with _ | ⟨l0, rest⟩
  · refine ⟨⟨fid, none, []⟩, rfl, ⟨?_, fun _ => rfl, ?_⟩, rfl, rfl⟩
    · intro l hl
      simp at hl
    · intro rc hrc
      cases hrc
  · rcases l0 with _ | bs
    · have h2 := hwl .ioerr (by simp)
      simp [parsesText] at h2
    · obtain ⟨q, hq⟩ := Option.isSome_iff_exists.mp
        (by simpa [parsesText] using hwl (.text bs) (by simp))
      refine ⟨⟨fid, some q, rest⟩, ?_, ⟨?_, ?_, ?_⟩, rfl, ?_⟩
      · show  (parseLine rng cfg bs).map (fun r => (⟨fid, some r, rest⟩ : Reader)) = _
        rw [hq]
        rfl
      · intro l hl
        exact hwl l (by simp [hl])
      · intro hh
        cases hh
      · intro rc hrc
        cases hrc
        rw [parseLine_line hq]
        exact hq
      · rw [readerRecs_some rfl]
        unfold runRecs
        rw [filterMap_text_cons rng cfg bs q rest hq]

theorem mapOpt_readers (rng : RNG) (cfg : Config) :
    ∀ (files : List RunFile),
      (∀ f ∈ files, ∀ l ∈ f.lines, parsesText rng cfg l = true) →
      ∃ readers, mapOpt (Reader.new rng cfg) files = some readers ∧
        readers.length = files.length ∧
        List.Forall₂ (fun f r => RWF rng cfg r ∧ r.id = f.id ∧
          readerRecs rng cfg r = runRecs rng cfg f) files readers := by
  intro files
  induction files with
  | nil =>
    intro _
    exact ⟨[], rfl, rfl, List.Forall₂.nil⟩
  | cons f fs ih =>
    intro h
    obtain ⟨r, hr, hwfr, hid, hrecs⟩ := readerNew_spec rng cfg f (h f (by simp))
    obtain ⟨rs, hrs, hlen, hall⟩ := ih (fun g hg => h g (by simp [hg]))
    exact ⟨r :: rs, by simp only [mapOpt, hr, hrs], by simp [hlen],
      List.Forall₂.cons ⟨hwfr, hid, hrecs⟩ hall⟩

theorem readers_recs_eq (rng : RNG) (cfg : Config) :
    ∀ {files : List RunFile} {readers : List Reader},
      List.Forall₂ (fun f r => RWF rng cfg r ∧ r.id = f.id ∧
        readerRecs rng cfg r = runRecs rng cfg f) files readers →
      readers.map (readerRecs rng cfg) = files.map (runRecs rng cfg) := by
  intro files readers h
  induction h with
  | nil => rfl
  | cons h1 _ ih =>
    simp only [List.map_cons, ih, h1.2.2]

theorem textOf_map_eq (rng : RNG) (cfg : Config) :
    ∀ (lines : List RLine), (∀ l ∈ lines, parsesText rng cfg l = true) →
      lines.map RLine.textOf =
        (lines.filterMap (fun l =>
          match l with
          | RLine.ioerr => none
          | RLine.text bs => parseLine rng cfg bs)).map Rec.line := by
  intro lines
  induction lines with
  | nil =>
    intro _
    rfl
  | cons l0 rest ih =>
    intro h
    rcases l0 with _ | bs
    · have h2 := h .ioerr (by simp)
      simp [parsesText] at h2
    · obtain ⟨q, hq⟩ := Option.isSome_iff_exists.mp
        (by simpa [parsesText] using h (.text bs) (by simp))
      rw [List.map_cons, filterMap_text_cons rng cfg bs q rest hq, List.map_cons,
        parseLine_line hq, ih (fun g hg => h g (by simp [hg]))]
      rfl

theorem internalMerge_nil (rng : RNG) (cfg : Config) (rm withAffix : Bool) :
    internalMerge rng cfg rm withAffix [] = .panic := rfl

theorem internalMerge_single (rng : RNG) (cfg : Config) (rm withAffix : Bool)
    (f : RunFile) (ht : f.lines.all RLine.isText = true) :
    internalMerge rng cfg rm withAffix [f] =
      .ok ((if withAffix then cfg.affixPre.map (fun l => l ++ [cfg.endl]) else []) ++
        f.lines.map RLine.textOf ++
        (if withAffix then cfg.affixSuf.map (fun l => l ++ [cfg.endl]) else []))
        [f.id] := by
  simp only [internalMerge]
  rw [if_pos ht]

theorem forall2_right {A B : Type} {rel : A → B → Prop} :
    ∀ {l1 : List A} {l2 : List B}, List.Forall₂ rel l1 l2 →
      ∀ b ∈ l2, ∃ a ∈ l1, rel a b := by
  intro l1 l2 h
  induction h with
  | nil =>
    intro b hb
    simp at hb
  | cons h1 _ ih =>
    intro b hb
    rcases List.mem_cons.mp hb with h2 | h2
    · subst h2
      exact ⟨_, by simp, h1⟩
    · obtain ⟨a, ha, hrel⟩ := ih b h2
      exact ⟨a, by simp [ha], hrel⟩

theorem internalMerge_multi (rng : RNG) (cfg : Config) (rm withAffix : Bool)
    (f1 f2 : RunFile) (rest : List RunFile) (readers : List Reader) (last : Reader)
    (hmo : mapOpt (Reader.new rng cfg) (f1 :: f2 :: rest) = some readers)
    (hH2 : (mergeLoop rng cfg rm (heapMeasure readers + 1) readers).2.2 = [last]) :
    internalMerge rng cfg rm withAffix (f1 :: f2 :: rest) =
      .ok ((if withAffix then cfg.affixPre.map (fun l => l ++ [cfg.endl]) else []) ++
          (mergeLoop rng cfg rm (heapMeasure readers + 1) readers).1 ++
          (drainAll rng cfg (readerMeasure last + 1) last).1 ++
          (if withAffix then cfg.affixSuf.map (fun l => l ++ [cfg.endl]) else []))
        ((mergeLoop rng cfg rm (heapMeasure readers + 1) readers).2.1 ++
          (drainAll rng cfg (readerMeasure last + 1) last).2) := by
  simp only [internalMerge, hmo, hH2, popMax, popMaxGo, List.reverse_nil]

theorem internalMerge_spec (rng : RNG) (cfg : Config) (rm withAffix : Bool)
    (files : List RunFile) (hne : files ≠ [])
    (hwl : ∀ f ∈ files, ∀ l ∈ f.lines, parsesText rng cfg l = true)
    (hsort : ∀ f ∈ files, (runRecs rng cfg f).Pairwise (leRec cfg.ord)) :
    ∃ E removed,
      internalMerge rng cfg rm withAffix files =
        .ok ((if withAffix then cfg.affixPre.map (fun l => l ++ [cfg.endl]) else []) ++
          E.map Rec.line ++
          (if withAffix then cfg.affixSuf.map (fun l => l ++ [cfg.endl]) else []))
          removed ∧
      List.Perm E ((files.map (runRecs rng cfg)).flatten) ∧
      E.Pairwise (leRec cfg.ord) := by
  rcases files with _ | ⟨f1, rest1⟩
  · exact absurd rfl hne
  rcases rest1 with _ | ⟨f2, rest⟩
  · -- single input: the file is streamed through verbatim
    have htext : f1.lines.all RLine.isText = true := by
      rw [List.all_eq_true]
      intro l hl
      exact isText_of_parses (hwl f1 (by simp) l hl)
    refine ⟨runRecs rng cfg f1, [f1.id], ?_, ?_, hsort f1 (by simp)⟩
    · rw [internalMerge_single rng cfg rm withAffix f1 htext]
      have h2 : f1.lines.map RLine.textOf = (runRecs rng cfg f1).map Rec.line :=
        textOf_map_eq rng cfg f1.lines (hwl f1 (by simp))
      rw [h2]
    · simp only [List.map_cons, List.map_nil, List.flatten_cons, List.flatten_nil,
        List.append_nil]
      exact List.Perm.refl _
  · -- at least two inputs: heap-based merge
    obtain ⟨readers, hmo, hrlen, hall⟩ := mapOpt_readers rng cfg (f1 :: f2 :: rest) hwl
    have hmapeq : readers.map (readerRecs rng cfg) =
        (f1 :: f2 :: rest).map (runRecs rng cfg) := readers_recs_eq rng cfg hall
    have hright := forall2_right hall
    have hwfr : ∀ r ∈ readers, RWF rng cfg r := by
      intro r hr
      obtain ⟨f, _, hrel⟩ := hright r hr
      exact hrel.1
    have hsortr : ∀ r ∈ readers, (readerRecs rng cfg r).Pairwise (leRec cfg.ord) := by
      intro r hr
      obtain ⟨f, hf, hrel⟩ := hright r hr
      rw [hrel.2.2]
      exact hsort f hf
    obtain ⟨E0, hout, hperm, hpair0, hcross, hH2all, hH2len, _⟩ :=
      mergeLoop_spec rng cfg rm (heapMeasure readers + 1) readers
        (Nat.lt_succ_self _) hwfr hsortr
    have h1len : 1 < readers.length := by
      rw [hrlen, List.length_cons, List.length_cons]
      omega
    obtain ⟨last, hH2⟩ := List.length_eq_one.mp (hH2len h1len)
    have hlastmem : last ∈ (mergeLoop rng cfg rm (heapMeasure readers + 1) readers).2.2 := by
      rw [hH2]
      simp
    obtain ⟨hwflast, hsortlast⟩ := hH2all last hlastmem
    obtain ⟨hd1, hd2⟩ := drainAll_spec rng cfg (readerMeasure last + 1) last hwflast
      (Nat.lt_succ_self _)
    refine ⟨E0 ++ readerRecs rng cfg last,
      (mergeLoop rng cfg rm (heapMeasure readers + 1) readers).2.1 ++
        (drainAll rng cfg (readerMeasure last + 1) last).2, ?_, ?_, ?_⟩
    · rw [internalMerge_multi rng cfg rm withAffix f1 f2 rest readers last hmo hH2,
        hout, hd1]
      simp only [List.map_append, List.append_assoc]
    · rw [← hmapeq]
      rw [hH2] at hperm
      simp only [List.map_cons, List.map_nil, List.flatten_cons, List.flatten_nil,
        List.append_nil] at hperm
      exact hperm.symm
    · rw [List.pairwise_append]
      exact ⟨hpair0, hsortlast, fun e he p hp => hcross e he last hlastmem p hp⟩

/-! Assembly lemmas for the whole sort job. -/

theorem map_flatten_eq {A B : Type} (f : A → B) :
    ∀ (L : List (List A)), (L.flatten).map f = (L.map (List.map f)).flatten := by
  intro L
  induction L with
  | nil => rfl
  | cons x xs ih =>
    simp only [List.flatten_cons, List.map_append, List.map_cons, ih]

theorem filter_flatten_eq {A : Type} (p : A → Bool) :
    ∀ (L : List (List A)), (L.flatten).filter p = (L.map (List.filter p)).flatten := by
  intro L
  induction L with
  | nil => rfl
  | cons x xs ih =>
    simp only [List.flatten_cons, List.filter_append, List.map_cons, ih]

theorem filterMap_flatten_eq {A B : Type} (f : A → Option B) :
    ∀ (L : List (List A)), (L.flatten).filterMap f = (L.map (List.filterMap f)).flatten := by
  intro L
  induction L with
  | nil => rfl
  | cons x xs ih =>
    simp only [List.flatten_cons, List.filterMap_append, List.map_cons, ih]

theorem withIds_map_snd {A B : Type} (g : A → B) :
    ∀ (l : List A) (n : Nat), (withIds n l).map (fun p => g p.2) = l.map g := by
  intro l
  induction l with
  | nil =>
    intro n
    rfl
  | cons a as ih =>
    intro n
    simp only [withIds, List.map_cons, ih]

theorem filterMap_text_map (rng : RNG) (cfg : Config) :
    ∀ (L : List Bytes),
      (L.map RLine.text).filterMap (fun l =>
        match l with
        | RLine.ioerr => none
        | RLine.text bs => parseLine rng cfg bs) = L.filterMap (parseLine rng cfg) := by
  intro L
  induction L with
  | nil => rfl
  | cons a as ih =>
    simp only [List.map_cons, List.filterMap_cons, ih]

theorem mapOpt_parse_spec (rng : RNG) (cfg : Config) :
    ∀ (l : List Bytes), (∀ a ∈ l, (parseLine rng cfg a).isSome) →
      ∃ recs, mapOpt (parseLine rng cfg) l = some recs ∧ recs.map Rec.line = l ∧
        ∀ r ∈ recs, parseLine rng cfg r.line = some r := by
  intro l
  induction l with
  | nil =>
    intro _
    refine ⟨[], rfl, rfl, ?_⟩
    intro r hr
    simp at hr
  | cons a as ih =>
    intro h
    rcases Option.isSome_iff_exists.mp (h a (by simp)) with ⟨b, hb⟩
    rcases ih (fun x hx => h x (by simp [hx])) with ⟨recs, hrecs, hline, hself⟩
    refine ⟨b :: recs, by simp only [mapOpt, hb, hrecs], ?_, ?_⟩
    · rw [List.map_cons, parseLine_line hb, hline]
    · intro r hr
      rcases List.mem_cons.mp hr with h2 | h2
      · subst h2
        rw [parseLine_line hb]
        exact hb
      · exact hself r h2

theorem filterMap_eq_of_mapOpt {A B : Type} {f : A → Option B} :
    ∀ {l : List A} {bs : List B}, mapOpt f l = some bs → l.filterMap f = bs := by
  intro l
  induction l with
  | nil =>
    intro bs h
    simp only [mapOpt] at h
    cases h
    rfl
  | cons a as ih =>
    intro bs h
    simp only [mapOpt] at h
    rcases ha : f a with _ | b
    · rw [ha] at h
      cases h
    · rw [ha] at h
      rcases has : mapOpt f as with _ | bs2
      · rw [has] at h
        cases h
      · rw [has] at h
        cases h
        simp only [List.filterMap_cons, ha, ih has]

theorem filterMap_parse_selfmap (rng : RNG) (cfg : Config) :
    ∀ (S : List Rec), (∀ r ∈ S, parseLine rng cfg r.line = some r) →
      (S.map Rec.line).filterMap (parseLine rng cfg) = S := by
  intro S
  induction S with
  | nil =>
    intro _
    rfl
  | cons r rest ih =>
    intro h
    simp only [List.map_cons, List.filterMap_cons, h r (by simp),
      ih (fun x hx => h x (by simp [hx]))]

theorem runRecs_selfparse (rng : RNG) (cfg : Config) (i : Nat) (S : List Rec)
    (h : ∀ r ∈ S, parseLine rng cfg r.line = some r) :
    runRecs rng cfg ⟨i, (S.map Rec.line).map RLine.text⟩ = S := by
  unfold runRecs
  rw [filterMap_text_map, filterMap_parse_selfmap rng cfg S h]

theorem file_chunk_lines (cfg : Config) (f : Bytes) :
    ((chunks f cfg.jump cfg.endl).map
      (fun c => splitLines cfg.endl (sliceBytes f c))).flatten =
      splitLines cfg.endl f := by
  have h := contiguous_lines f cfg.endl (chunks f cfg.jump cfg.endl) 0
    (chunks_contiguous f cfg.jump cfg.endl) (chunks_boundaries f cfg.jump cfg.endl)
  rw [List.drop_zero] at h
  exact h

theorem jobChunks_cons (cfg : Config) (f : Bytes) (fs : List Bytes) :
    jobChunks cfg (f :: fs) =
      (chunks f cfg.jump cfg.endl).map (sliceBytes f) ++ jobChunks cfg fs := by
  simp only [jobChunks, List.map_cons, List.flatten_cons]

theorem jobChunks_lines (cfg : Config) :
    ∀ (files : List Bytes),
      ((jobChunks cfg files).map (splitLines cfg.endl)).flatten =
        (files.map (splitLines cfg.endl)).flatten := by
  intro files
  induction files with
  | nil => rfl
  | cons f fs ih =>
    rw [jobChunks_cons, List.map_append, List.flatten_append, List.map_cons,
      List.flatten_cons, ih]
    congr 1
    rw [List.map_map]
    exact file_chunk_lines cfg f

theorem taskRun_spec (rng : RNG) (cfg : Config) (i : Nat) (chunk : Bytes)
    (hparse : ∀ l ∈ (splitLines cfg.endl chunk).filter (keepLine cfg),
      (parseLine rng cfg l).isSome)
    (hgood : ∀ l ∈ (splitLines cfg.endl chunk).filter (keepLine cfg),
      goodLine cfg.endl l) :
    ∃ run, taskRun rng cfg i chunk = some run ∧
      run.id = i ∧
      (∀ l ∈ run.lines, parsesText rng cfg l = true) ∧
      (runRecs rng cfg run).Pairwise (leRec cfg.ord) ∧
      (∀ r ∈ runRecs rng cfg run, parseLine rng cfg r.line = some r) ∧
      List.Perm ((runRecs rng cfg run).map Rec.line)
        ((splitLines cfg.endl chunk).filter (keepLine cfg)) := by
  obtain ⟨recs, hrecs, hline, hself⟩ := mapOpt_parse_spec rng cfg
    ((splitLines cfg.endl chunk).filter (keepLine cfg)) hparse
  have hrr : readRecords rng cfg chunk = some recs := by
    unfold readRecords
    exact hrecs
  have hselfS : ∀ r ∈ sortOrd (recCmp cfg.ord) recs, parseLine rng cfg r.line = some r :=
    fun r hr => hself r ((sortOrd_perm (recCmp cfg.ord) recs).mem_iff.mp hr)
  have hpermLine : List.Perm ((sortOrd (recCmp cfg.ord) recs).map Rec.line)
      ((splitLines cfg.endl chunk).filter (keepLine cfg)) := by
    rw [← hline]
    exact (sortOrd_perm (recCmp cfg.ord) recs).map Rec.line
  have hgoodS : ∀ l ∈ (sortOrd (recCmp cfg.ord) recs).map Rec.line, goodLine cfg.endl l :=
    fun l hl => hgood l (hpermLine.mem_iff.mp hl)
  have hsplit : splitLines cfg.endl (((sortOrd (recCmp cfg.ord) recs).map Rec.line).flatten) =
      (sortOrd (recCmp cfg.ord) recs).map Rec.line := splitLines_flatten_eq hgoodS
  refine ⟨⟨i, (((sortOrd (recCmp cfg.ord) recs).map Rec.line).map RLine.text)⟩, ?_, rfl,
    ?_, ?_, ?_, ?_⟩
  · unfold taskRun
    rw [hrr]
    simp only [Option.map_some']
    rw [hsplit]
  · intro l hl
    rcases List.mem_map.mp hl with ⟨bs, hbs, hl2⟩
    subst hl2
    rcases List.mem_map.mp hbs with ⟨r, hr, hb2⟩
    subst hb2
    show (parseLine rng cfg r.line).isSome = true
    rw [hselfS r hr]
    rfl
  · rw [runRecs_selfparse rng cfg i _ hselfS]
    exact sortOrd_pairwise (recCmp_lawful cfg.ord) recs
  · rw [runRecs_selfparse rng cfg i _ hselfS]
    exact hselfS
  · rw [runRecs_selfparse rng cfg i _ hselfS]
    exact hpermLine

theorem taskRuns_spec (rng : RNG) (cfg : Config) :
    ∀ (cs : List Bytes) (start : Nat),
      (∀ c ∈ cs, ∀ l ∈ (splitLines cfg.endl c).filter (keepLine cfg),
        (parseLine rng cfg l).isSome ∧ goodLine cfg.endl l) →
      ∃ runs, mapOpt (fun p => taskRun rng cfg p.1 p.2) (withIds start cs) = some runs ∧
        (∀ run ∈ runs, ∀ l ∈ run.lines, parsesText rng cfg l = true) ∧
        (∀ run ∈ runs, (runRecs rng cfg run).Pairwise (leRec cfg.ord)) ∧
        (∀ run ∈ runs, ∀ r ∈ runRecs rng cfg run, parseLine rng cfg r.line = some r) ∧
        List.Perm ((runs.map (fun run => (runRecs rng cfg run).map Rec.line)).flatten)
          ((cs.map (fun c => (splitLines cfg.endl c).filter (keepLine cfg))).flatten) ∧
        runs.length = cs.length := by
  intro cs
  induction cs with
  | nil =>
    intro start _
    refine ⟨[], rfl, ?_, ?_, ?_, List.Perm.refl _, rfl⟩ <;>
      exact fun run hr => absurd hr (by simp)
  | cons c cs2 ih =>
    intro start h
    obtain ⟨run, hrun, hid, hptext, hpair, hself, hperm⟩ := taskRun_spec rng cfg start c
      (fun l hl => (h c (by simp) l hl).1) (fun l hl => (h c (by simp) l hl).2)
    obtain ⟨runs, hruns, hptext2, hpair2, hself2, hperm2, hlen⟩ :=
      ih (start + 1) (fun c2 hc2 => h c2 (by simp [hc2]))
    refine ⟨run :: runs, ?_, ?_, ?_, ?_, ?_, ?_⟩
    · show mapOpt (fun p => taskRun rng cfg p.1 p.2) ((start, c) :: withIds (start + 1) cs2)
        = some (run :: runs)
      simp only [mapOpt, hrun, hruns]
    · intro r hr
      rcases List.mem_cons.mp hr with h2 | h2
      · subst h2
        exact hptext
      · exact hptext2 r h2
    · intro r hr
      rcases List.mem_cons.mp hr with h2 | h2
      · subst h2
        exact hpair
      · exact hpair2 r h2
    · intro r hr
      rcases List.mem_cons.mp hr with h2 | h2
      · subst h2
        exact hself
      · exact hself2 r h2
    · simp only [List.map_cons, List.flatten_cons]
      exact hperm.append hperm2
    · simp [hlen]

theorem sortJob_runs (rng : RNG) (cfg : Config) (files : List Bytes) (runs : List RunFile)
    (hmo : mapOpt (fun p => taskRun rng cfg p.1 p.2)
      (withIds 0 (jobChunks cfg files)) = some runs) :
    sortJob rng cfg (files.map some) =
      if cfg.concurrentMerge ∧ 1 < runs.length then
        match internalMerge rng cfg true false runs with
        | .ok outLines _ =>
          internalMerge rng cfg true true
            [⟨(jobChunks cfg files).length,
              (splitLines cfg.endl outLines.flatten).map RLine.text⟩]
        | _ => .panic
      else internalMerge rng cfg true true runs := by
  have hany : (files.map some).any (fun o => o.isNone) = false := by
    simp
  have hfm : (files.map some).filterMap id = files := by
    simp
  simp only [sortJob, hany, hfm, Bool.false_eq_true, if_false, hmo]

theorem sorted_perm_eq {A : Type} (c : A → A → Ordering) :
    ∀ {l1 l2 : List A}, List.Perm l1 l2 →
      l1.Pairwise (fun x y => c x y ≠ .gt) → l2.Pairwise (fun x y => c x y ≠ .gt) →
      (∀ a, a ∈ l1 → ∀ b, b ∈ l1 → c a b ≠ .gt → c b a ≠ .gt → a = b) →
      l1 = l2 := by
  intro l1
  induction l1 with
  | nil =>
    intro l2 h _ _ _
    exact h.nil_eq
  | cons a t1 ih =>
    intro l2 h hp1 hp2 hanti
    cases l2 with
    | nil =>
      exact absurd h.eq_nil (by simp)
    | cons b t2 =>
      have hab : a = b := by
        by_contra hne
        have hbmem : b ∈ t1 := by
          rcases List.mem_cons.mp (h.symm.mem_iff.mp (List.mem_cons_self b t2)) with h2 | h2
          · exact absurd h2.symm hne
          · exact h2
        have hamem : a ∈ t2 := by
          rcases List.mem_cons.mp (h.mem_iff.mp (List.mem_cons_self a t1)) with h2 | h2
          · exact absurd h2 hne
          · exact h2
        have h1 : c a b ≠ .gt := (List.pairwise_cons.mp hp1).1 b hbmem
        have h2 : c b a ≠ .gt := (List.pairwise_cons.mp hp2).1 a hamem
        exact hne (hanti a (by simp) b (by simp [hbmem]) h1 h2)
      subst hab
      have ht : t1 = t2 := ih (h.cons_inv) (List.pairwise_cons.mp hp1).2
        (List.pairwise_cons.mp hp2).2
        (fun x hx y hy => hanti x (by simp [hx]) y (by simp [hy]))
      rw [ht]

theorem pairwise_lineLE_of_recs (rng : RNG) (cfg : Config) (E : List Rec)
    (hsp : ∀ r ∈ E, parseLine rng cfg r.line = some r)
    (hp : E.Pairwise (leRec cfg.ord)) : (E.map Rec.line).Pairwise (lineLE rng cfg) := by
  rw [List.pairwise_map]
  refine hp.imp_of_mem ?_
  intro a b ha hb hR
  intro ra rb hpa hpb
  have hra : ra = a := by
    rw [hsp a ha] at hpa
    exact (Option.some_inj.mp hpa).symm
  have hrb : rb = b := by
    rw [hsp b hb] at hpb
    exact (Option.some_inj.mp hpb).symm
  subst hra
  subst hrb
  have hR2 : applyOrder cfg.ord (cmpKeys ra.keys rb.keys) ≠ .gt := hR
  rcases hord : cfg.ord
  · rw [hord] at hR2
    exact hR2
  · rw [hord] at hR2
    exact swap_ne_gt.mp hR2

/-- C1 (amended): for inputs whose surviving lines all parse and are
properly terminated, the sort job succeeds and its output, between the
prefix and suffix lines, is a permutation of the surviving input lines
that is pairwise ordered under the configured fields. The unamended
claim fails on a final line without a terminator (see the
counterexample), which the run files of the sort tasks glue to its
predecessor. -/
theorem c1_sorted_permutation (rng : RNG) (cfg : Config) (files : List Bytes)
    (hne : ∃ f ∈ files, f ≠ [])
    (hkept : ∀ f ∈ files, ∀ l ∈ keptLines cfg f,
      (parseLine rng cfg l).isSome ∧ goodLine cfg.endl l) :
    ∃ body removed,
      sortJob rng cfg (files.map some) =
        .ok (cfg.affixPre.map (fun l => l ++ [cfg.endl]) ++ body ++
          cfg.affixSuf.map (fun l => l ++ [cfg.endl])) removed ∧
      List.Perm body ((files.map (keptLines cfg)).flatten) ∧
      body.Pairwise (lineLE rng cfg) := by
  have e1 : ((jobChunks cfg files).map
      (fun c => (splitLines cfg.endl c).filter (keepLine cfg))).flatten =
      (((jobChunks cfg files).map (splitLines cfg.endl)).flatten).filter (keepLine cfg) := by
    rw [filter_flatten_eq, List.map_map]
    rfl
  have e2 : (files.map (fun f => (splitLines cfg.endl f).filter (keepLine cfg))).flatten =
      ((files.map (splitLines cfg.endl)).flatten).filter (keepLine cfg) := by
    rw [filter_flatten_eq, List.map_map]
    rfl
  have hKC : ((jobChunks cfg files).map
      (fun c => (splitLines cfg.endl c).filter (keepLine cfg))).flatten =
      (files.map (keptLines cfg)).flatten := by
    rw [e1, jobChunks_lines, ← e2]
    rfl
  have hchunk : ∀ c ∈ jobChunks cfg files,
      ∀ l ∈ (splitLines cfg.endl c).filter (keepLine cfg),
        (parseLine rng cfg l).isSome ∧ goodLine cfg.endl l := by
    intro c hc l hl
    have hlk : l ∈ ((jobChunks cfg files).map
        (fun c => (splitLines cfg.endl c).filter (keepLine cfg))).flatten := by
      rw [List.mem_flatten]
      exact ⟨_, List.mem_map_of_mem _ hc, hl⟩
    rw [hKC, List.mem_flatten] at hlk
    obtain ⟨L, hL, hlL⟩ := hlk
    obtain ⟨f, hf, hLf⟩ := List.mem_map.mp hL
    subst hLf
    exact hkept f hf l hlL
  obtain ⟨runs, hmo, hptext, hpair, hself, hpermC, hlen⟩ :=
    taskRuns_spec rng cfg (jobChunks cfg files) 0 hchunk
  have hcsne : jobChunks cfg files ≠ [] := by
    obtain ⟨f0, hf0, hf0ne⟩ := hne
    intro hnil
    have hch : chunks f0 cfg.jump cfg.endl ≠ [] := by
      rw [ne_eq, chunks_nil_iff]
      exact hf0ne
    obtain ⟨c0, hc0⟩ := List.exists_mem_of_ne_nil _ hch
    have hmem : sliceBytes f0 c0 ∈ jobChunks cfg files := by
      unfold jobChunks
      rw [List.mem_flatten]
      exact ⟨_, List.mem_map_of_mem _ hf0, List.mem_map_of_mem _ hc0⟩
    rw [hnil] at hmem
    cases hmem
  have hrne : runs ≠ [] := by
    intro hnil
    rw [hnil] at hlen
    exact hcsne (List.length_eq_zero.mp hlen.symm)
  have hmapfl : ((runs.map (runRecs rng cfg)).flatten).map Rec.line =
      (runs.map (fun run => (runRecs rng cfg run).map Rec.line)).flatten := by
    rw [map_flatten_eq, List.map_map]
    rfl
  have hperm1 : List.Perm (((runs.map (runRecs rng cfg)).flatten).map Rec.line)
      ((files.map (keptLines cfg)).flatten) := by
    rw [hmapfl, ← hKC]
    exact hpermC
  rw [sortJob_runs rng cfg files runs hmo]
  by_cases hbr : (cfg.concurrentMerge = true ∧ 1 < runs.length)
  · rw [if_pos hbr]
    obtain ⟨E0, rm0, heq0, hperm0, hpair0⟩ :=
      internalMerge_spec rng cfg true false runs hrne hptext hpair
    have heq0b : internalMerge rng cfg true false runs = .ok (E0.map Rec.line) rm0 := by
      rw [heq0]
      simp
    have hE0self : ∀ r ∈ E0, parseLine rng cfg r.line = some r := by
      intro r hr
      have hrmem := hperm0.mem_iff.mp hr
      rw [List.mem_flatten] at hrmem
      obtain ⟨L, hL, hrL⟩ := hrmem
      obtain ⟨run, hrun, hLrun⟩ := List.mem_map.mp hL
      subst hLrun
      exact hself run hrun r hrL
    have hE0good : ∀ l ∈ E0.map Rec.line, goodLine cfg.endl l := by
      intro l hl
      have hl2 : l ∈ (files.map (keptLines cfg)).flatten :=
        hperm1.mem_iff.mp ((hperm0.map Rec.line).mem_iff.mp hl)
      rw [List.mem_flatten] at hl2
      obtain ⟨L, hL, hlL⟩ := hl2
      obtain ⟨f, hf, hLf⟩ := List.mem_map.mp hL
      subst hLf
      exact (hkept f hf l hlL).2
    have hresplit : splitLines cfg.endl ((E0.map Rec.line).flatten) = E0.map Rec.line :=
      splitLines_flatten_eq hE0good
    have hR1recs : runRecs rng cfg
        ⟨(jobChunks cfg files).length, ((E0.map Rec.line)).map RLine.text⟩ = E0 :=
      runRecs_selfparse rng cfg (jobChunks cfg files).length E0 hE0self
    have hR1lines : ∀ f ∈ [(⟨(jobChunks cfg files).length,
        ((E0.map Rec.line)).map RLine.text⟩ : RunFile)],
        ∀ l ∈ f.lines, parsesText rng cfg l = true := by
      intro f hf l hl
      rw [List.mem_singleton] at hf
      subst hf
      rcases List.mem_map.mp hl with ⟨bs, hbs, hl2⟩
      subst hl2
      rcases List.mem_map.mp hbs with ⟨r, hr, hb2⟩
      subst hb2
      show (parseLine rng cfg r.line).isSome = true
      rw [hE0self r hr]
      rfl
    have hR1sort : ∀ f ∈ [(⟨(jobChunks cfg files).length,
        ((E0.map Rec.line)).map RLine.text⟩ : RunFile)],
        (runRecs rng cfg f).Pairwise (leRec cfg.ord) := by
      intro f hf
      rw [List.mem_singleton] at hf
      subst hf
      rw [hR1recs]
      exact hpair0
    obtain ⟨E1, rm1, heq1, hperm1b, hpair1b⟩ :=
      internalMerge_spec rng cfg true true
        [⟨(jobChunks cfg files).length, ((E0.map Rec.line)).map RLine.text⟩]
        (by simp) hR1lines hR1sort
    have hE1E0 : List.Perm E1 E0 := by
      have hp := hperm1b
      simp only [List.map_cons, List.map_nil, List.flatten_cons, List.flatten_nil,
        List.append_nil] at hp
      rw [hR1recs] at hp
      exact hp
    refine ⟨E1.map Rec.line, rm1, ?_, ?_, ?_⟩
    · rw [heq0b]
      show internalMerge rng cfg true true
        [⟨(jobChunks cfg files).length,
          (splitLines cfg.endl ((E0.map Rec.line).flatten)).map RLine.text⟩] = _
      rw [hresplit, heq1]
      rfl
    · exact (hE1E0.map Rec.line).trans ((hperm0.map Rec.line).trans hperm1)
    · apply pairwise_lineLE_of_recs rng cfg E1 ?_ hpair1b
      intro r hr
      exact hE0self r (hE1E0.mem_iff.mp hr)
  · rw [if_neg hbr]
    obtain ⟨E, rmv, heq, hpermE, hpairE⟩ :=
      internalMerge_spec rng cfg true true runs hrne hptext hpair
    refine ⟨E.map Rec.line, rmv, ?_, ?_, ?_⟩
    · rw [heq]
      rfl
    · exact (hpermE.map Rec.line).trans hperm1
    · apply pairwise_lineLE_of_recs rng cfg E ?_ hpairE
      intro r hr
      have hrmem := hpermE.mem_iff.mp hr
      rw [List.mem_flatten] at hrmem
      obtain ⟨L, hL, hrL⟩ := hrmem
      obtain ⟨run, hrun, hLrun⟩ := List.mem_map.mp hL
      subst hLrun
      exact hself run hrun r hrL

/-! Claim theorems. -/

/-- C1 counterexample: on the input file of bytes b, newline, a — whose
final line has no terminator — the sort job succeeds but its output
lines are not a permutation of the surviving input lines: the run file
written by the sort task concatenates the sorted lines a and b-newline
into the single line ab-newline. -/
theorem c1_counterexample :
    sortJob rng0 cfgStd [some [98, 10, 97]] = MOut.ok [[97, 98, 10]] [0] ∧
    ¬ List.Perm [[97, 98, 10]] (([[98, 10, 97]].map (keptLines cfgStd)).flatten) := by
  constructor
  · rfl
  · decide

/-- Witness for the C1 theorem at the two-line input b-newline,
a-newline. -/
theorem c1_sorted_permutation_witness :
    ∃ body removed,
      sortJob rng0 cfgStd ([[98, 10, 97, 10]].map some) =
        MOut.ok (cfgStd.affixPre.map (fun l => l ++ [cfgStd.endl]) ++ body ++
          cfgStd.affixSuf.map (fun l => l ++ [cfgStd.endl])) removed ∧
      List.Perm body (([[98, 10, 97, 10]].map (keptLines cfgStd)).flatten) ∧
      body.Pairwise (lineLE rng0 cfgStd) :=
  c1_sorted_permutation rng0 cfgStd [[98, 10, 97, 10]] (by decide) (by decide)

/-- C2 counterexample: the claim says cmp(Number NaN, Number x) =
Greater and cmp(Number x, Number NaN) = Less for non-NaN x, but the code
(key.rs lines 138-144) orders NaN below every non-NaN value. -/
theorem c2_counterexample :
    Key.cmp (Key.num FP.nan) (Key.num (FP.fin 0)) = .lt ∧
    Key.cmp (Key.num (FP.fin 0)) (Key.num FP.nan) = .gt := by
  constructor
  · rfl
  · rfl

/-- C2 (amended): Number key comparison is a total order in which NaN
equals NaN and NaN is LESS than every non-NaN value — the direction is
the reverse of the claim. -/
theorem c2_nan_total_order :
    (∀ a b : FP, Key.cmp (Key.num a) (Key.num b) = (Key.cmp (Key.num b) (Key.num a)).swap) ∧
    (∀ a b d : FP, Key.cmp (Key.num a) (Key.num b) ≠ .gt →
      Key.cmp (Key.num b) (Key.num d) ≠ .gt → Key.cmp (Key.num a) (Key.num d) ≠ .gt) ∧
    Key.cmp (Key.num FP.nan) (Key.num FP.nan) = .eq ∧
    (∀ x : FP, x ≠ FP.nan →
      Key.cmp (Key.num FP.nan) (Key.num x) = .lt ∧
      Key.cmp (Key.num x) (Key.num FP.nan) = .gt) := by
  refine ⟨?_, ?_, rfl, ?_⟩
  · intro a b
    exact Key_cmp_lawful.1 _ _
  · intro a b d hab hbd
    exact Key_cmp_lawful.2 _ _ _ hab hbd
  · intro x hx
    cases x
    · exact absurd rfl hx
    · exact ⟨rfl, rfl⟩
    · exact ⟨rfl, rfl⟩
    · exact ⟨rfl, rfl⟩

/-- Witness for the C2 theorem at the non-NaN value 3. -/
theorem c2_nan_total_order_witness :
    Key.cmp (Key.num FP.nan) (Key.num (FP.fin 3)) = .lt ∧
    Key.cmp (Key.num (FP.fin 3)) (Key.num FP.nan) = .gt :=
  c2_nan_total_order.2.2.2 (FP.fin 3) (by decide)

/-- C4: the chunks of a file tile the byte range from zero to the file
size contiguously without overlap, every internal boundary falls right
after a line terminator, the chunk list is empty exactly for the empty
file, and a target at least the file size gives one chunk spanning the
file. -/
theorem c4_chunk_coverage (file : Bytes) (jump endl : Nat) :
    contiguous 0 file.length (chunks file jump endl) ∧
    boundariesOk file endl (chunks file jump endl) ∧
    (chunks file jump endl = [] ↔ file = []) ∧
    (file ≠ [] → file.length ≤ jump → chunks file jump endl = [(0, file.length)]) :=
  ⟨chunks_contiguous file jump endl, chunks_boundaries file jump endl,
    chunks_nil_iff file jump endl, fun h1 h2 => chunks_single file jump endl h1 h2⟩

/-- Witness for the C4 theorem on a three-byte file with the target not
below the file size. -/
theorem c4_chunk_coverage_witness :
    contiguous 0 ([97, 10, 98] : Bytes).length (chunks [97, 10, 98] 3 10) ∧
    boundariesOk [97, 10, 98] 10 (chunks [97, 10, 98] 3 10) ∧
    (chunks [97, 10, 98] 3 10 = [] ↔ ([97, 10, 98] : Bytes) = []) ∧
    chunks [97, 10, 98] 3 10 = [(0, ([97, 10, 98] : Bytes).length)] :=
  ⟨(c4_chunk_coverage [97, 10, 98] 3 10).1, (c4_chunk_coverage [97, 10, 98] 3 10).2.1,
    (c4_chunk_coverage [97, 10, 98] 3 10).2.2.1,
    (c4_chunk_coverage [97, 10, 98] 3 10).2.2.2 (by decide) (by decide)⟩

/-- C5 counterexample: with one exhausted and one non-empty reader on
the heap, the popped maximum is the exhausted reader, not the reader
with the smallest non-empty head: empty readers sort BEFORE (pop ahead
of) non-empty ones, as the source comment on unmerged_chunk_file.rs
lines 92-96 states. -/
theorem c5_counterexample :
    popMax Order.Asc
        [⟨0, none, []⟩, ⟨1, some ⟨[97], [Key.str [97]]⟩, []⟩] =
      some (⟨0, none, []⟩, [⟨1, some ⟨[97], [Key.str [97]]⟩, []⟩]) ∧
    (⟨0, none, []⟩ : Reader).head = none := by
  constructor
  · rfl
  · rfl

/-- C5 (amended): an exhausted reader compares Greater than every
non-empty reader, so it is a heap maximum and pops FIRST; only when all
readers are non-empty does the popped reader hold the smallest head. -/
theorem c5_heap_invariant :
    (∀ (ord : Order) (a b : Reader), a.head = none → b.head ≠ none →
      cmpReader ord a b = .gt) ∧
    (∀ (ord : Order) (H : List Reader) (b : Reader) (rest : List Reader),
      (∀ r ∈ H, r.head ≠ none) → popMax ord H = some (b, rest) →
      ∃ xb, b.head = some xb ∧
        ∀ y ∈ rest, ∀ xy, y.head = some xy → recCmp ord xb xy ≠ .gt) := by
  constructor
  · intro ord a b ha hb
    unfold cmpReader
    rw [ha]
    rcases h : b.head with _ | x
    · exact absurd h hb
    · rfl
  · intro ord H b rest hall hpop
    have hne : H ≠ [] := by
      intro h
      rw [h] at hpop
      cases hpop
    obtain ⟨b2, rest2, hpop2, hperm2, hmax2⟩ := popMax_spec ord H hne
    rw [hpop2] at hpop
    injection hpop with h1
    injection h1 with hb2 hr2
    subst hb2
    subst hr2
    have hbmem : b2 ∈ H := hperm2.mem_iff.mpr (by simp)
    rcases hh : b2.head with _ | xb
    · exact absurd hh (hall b2 hbmem)
    · refine ⟨xb, rfl, ?_⟩
      intro y hy xy hxy
      have hylt := hmax2 y hy
      intro hgt
      apply hylt
      unfold cmpReader
      rw [hxy, hh]
      exact hgt

/-- Witness for the C5 theorem: two non-empty readers, the popped one
holding the smaller head. -/
theorem c5_heap_invariant_witness :
    cmpReader Order.Asc (⟨0, none, []⟩ : Reader)
        (⟨1, some ⟨[97], [Key.str [97]]⟩, []⟩ : Reader) = .gt ∧
    ∃ xb, (Reader.mk 1 (some ⟨[97], [Key.str [97]]⟩) []).head = some xb ∧
      ∀ y ∈ [(⟨2, some ⟨[98], [Key.str [98]]⟩, []⟩ : Reader)], ∀ xy, y.head = some xy →
        recCmp Order.Asc xb xy ≠ .gt :=
  ⟨c5_heap_invariant.1 Order.Asc ⟨0, none, []⟩ ⟨1, some ⟨[97], [Key.str [97]]⟩, []⟩
      rfl (by decide),
    c5_heap_invariant.2 Order.Asc
      [⟨1, some ⟨[97], [Key.str [97]]⟩, []⟩, ⟨2, some ⟨[98], [Key.str [98]]⟩, []⟩]
      ⟨1, some ⟨[97], [Key.str [97]]⟩, []⟩ [⟨2, some ⟨[98], [Key.str [98]]⟩, []⟩]
      (by decide) (by decide)⟩

/-- C7 counterexample: the sort job on an empty input list panics on the
pop().unwrap() of the empty run heap (sort.rs line 478) instead of
returning a typed ConfigError. -/
theorem c7_counterexample : sortJob rng0 cfgStd [] = MOut.panic := rfl

/-- C7 (amended): the empty input list and a non-existent input path
both panic (unwrap on the run heap pop of sort.rs line 478 and on
ChunkIterator::new of line 516); only the invalid index-0 field
combination surfaces as a typed error. -/
theorem c7_error_paths :
    sortJob rng0 cfgStd [] = MOut.panic ∧
    sortJob rng0 cfgStd [none] = MOut.panic ∧
    LineRecord.new rng0 [49, 9, 50, 10] cfgMix.fields cfgMix.fieldSep = none ∧
    sortJob rng0 cfgMix [some [49, 9, 50, 10]] = MOut.err := by
  refine ⟨rfl, rfl, rfl, rfl⟩

/-- C8: contrary to the claim (and the spec), the single-input branch of
the merge engine removes the input file even when the removal flag is
disabled: remove_file at sort.rs line 441 is unconditional, unlike the
flag-guarded removal of the multi-input branch at line 486. -/
theorem c8_single_input_removed :
    internalMerge rng0 cfgStd false true [⟨7, [RLine.text [97, 10]]⟩] =
      MOut.ok [[97, 10]] [7] := rfl

/-- C9 counterexample: Key::new parses the original field text before
applying the random override (key.rs lines 40-56), so a random Integer
field fails on the non-numeric text abc. -/
theorem c9_counterexample :
    Key.new rng0 [97, 98, 99] ⟨1, FieldType.integer, false, false, true⟩ = none := rfl

/-- C9 (amended): on texts where construction succeeds, a random field
key depends only on the random draw, not on the text; but Integer and
Number random fields still fail when the original text does not parse,
contrary to the claim that construction never fails. -/
theorem c9_random_keys (rng : RNG) (f : Field) (a b : Bytes) (hr : f.random = true)
    (ha : Key.new rng a f ≠ none) (hb : Key.new rng b f ≠ none) :
    Key.new rng a f = Key.new rng b f := by
  unfold Key.new at ha hb ⊢
  rcases hft : f.ftype with _ | _ | _
  · simp only [hft]
    rw [hr]
    rfl
  · simp only [hft] at ha hb ⊢
    rcases hpa : parseI64 (trimBytes a) with _ | va
    · rw [hpa] at ha
      simp at ha
    · rcases hpb : parseI64 (trimBytes b) with _ | vb
      · rw [hpb] at hb
        simp at hb
      · simp only [Option.map_some']
        rw [hr]
        exact rfl
  · simp only [hft] at ha hb ⊢
    rcases hpa : parseF64 (trimBytes a) with _ | va
    · rw [hpa] at ha
      simp at ha
    · rcases hpb : parseF64 (trimBytes b) with _ | vb
      · rw [hpb] at hb
        simp at hb
      · simp only [Option.map_some']
        rw [hr]
        exact rfl

/-- Witness for the C9 theorem: a random Integer field yields the same
key from the texts 1 and 2. -/
theorem c9_random_keys_witness :
    Key.new rng0 [49] ⟨1, FieldType.integer, false, false, true⟩ =
      Key.new rng0 [50] ⟨1, FieldType.integer, false, false, true⟩ :=
  c9_random_keys rng0 ⟨1, FieldType.integer, false, false, true⟩ [49] [50] rfl
    (by decide) (by decide)

/-- C3 counterexample: a sorted file of two lines with EQUAL keys and
distinct bytes, partitioned into two one-line sorted shards listed with
the b-line first: the merge emits the first-listed reader on key ties,
so the output bytes differ from the original file even though the
partition satisfies every premise of the claim. -/
theorem c3_counterexample :
    internalMerge rng0 cfgTab false false
        [shardRun cfgTab.endl (0, [49, 9, 98, 10]), shardRun cfgTab.endl (1, [49, 9, 97, 10])] =
      MOut.ok [[49, 9, 98, 10], [49, 9, 97, 10]] [1] ∧
    List.Perm
      ((([[49, 9, 98, 10], [49, 9, 97, 10]] : List Bytes).map (splitLines cfgTab.endl)).flatten)
      (splitLines cfgTab.endl ([49, 9, 97, 10] ++ [49, 9, 98, 10])) ∧
    ((splitLines cfgTab.endl ([49, 9, 97, 10] ++ [49, 9, 98, 10])).filterMap
      (parseLine rng0 cfgTab)).Pairwise (leRec cfgTab.ord) ∧
    (∀ s ∈ ([[49, 9, 98, 10], [49, 9, 97, 10]] : List Bytes),
      ((splitLines cfgTab.endl s).filterMap (parseLine rng0 cfgTab)).Pairwise
        (leRec cfgTab.ord)) ∧
    ([[49, 9, 98, 10], [49, 9, 97, 10]] : List Bytes).flatten ≠
      [49, 9, 97, 10] ++ [49, 9, 98, 10] := by
  refine ⟨rfl, by decide, by decide, by decide, by decide⟩

theorem withIds_snd_mem {A : Type} :
    ∀ {l : List A} {n : Nat} {p : Nat × A}, p ∈ withIds n l → p.2 ∈ l := by
  intro l
  induction l with
  | nil =>
    intro n p hp
    cases hp
  | cons a as ih =>
    intro n p hp
    rcases List.mem_cons.mp hp with h2 | h2
    · subst h2
      simp
    · exact List.mem_cons_of_mem a (ih h2)

theorem runRecs_shardRun (rng : RNG) (cfg : Config) (p : Nat × Bytes) :
    runRecs rng cfg (shardRun cfg.endl p) =
      (splitLines cfg.endl p.2).filterMap (parseLine rng cfg) := by
  unfold shardRun runRecs
  exact filterMap_text_map rng cfg _

/-- C3 (amended): merge over sorted shards whose line multiset is that
of a sorted file reproduces the file byte for byte, PROVIDED the file
records are key-injective (equal keys come only from equal lines); the
unamended claim fails for equal keys with distinct bytes (see the
counterexample). -/
theorem c3_merge_equivalence (rng : RNG) (cfg : Config) (file : Bytes)
    (shards : List Bytes) (hne : shards ≠ [])
    (hperm : List.Perm ((shards.map (splitLines cfg.endl)).flatten)
      (splitLines cfg.endl file))
    (hgp : ∀ l ∈ splitLines cfg.endl file, (parseLine rng cfg l).isSome)
    (hsortshard : ∀ s ∈ shards,
      ((splitLines cfg.endl s).filterMap (parseLine rng cfg)).Pairwise (leRec cfg.ord))
    (hsortfile : ((splitLines cfg.endl file).filterMap (parseLine rng cfg)).Pairwise
      (leRec cfg.ord))
    (hinj : ∀ a ∈ (splitLines cfg.endl file).filterMap (parseLine rng cfg),
      ∀ b ∈ (splitLines cfg.endl file).filterMap (parseLine rng cfg),
      leRec cfg.ord a b → leRec cfg.ord b a → a = b) :
    ∃ out removed,
      internalMerge rng cfg false false ((withIds 0 shards).map (shardRun cfg.endl)) =
        .ok out removed ∧ out.flatten = file := by
  have hrne : ((withIds 0 shards).map (shardRun cfg.endl)) ≠ [] := by
    cases shards with
    | nil => exact absurd rfl hne
    | cons a as => simp [withIds]
  have hlines : ∀ run ∈ (withIds 0 shards).map (shardRun cfg.endl),
      ∀ l ∈ run.lines, parsesText rng cfg l = true := by
    intro run hrun l hl
    obtain ⟨p, hp, hpr⟩ := List.mem_map.mp hrun
    subst hpr
    rcases List.mem_map.mp hl with ⟨bs, hbs, hlb⟩
    subst hlb
    show (parseLine rng cfg bs).isSome = true
    have hbsf : bs ∈ splitLines cfg.endl file := by
      apply hperm.mem_iff.mp
      rw [List.mem_flatten]
      exact ⟨_, List.mem_map_of_mem _ (withIds_snd_mem hp), hbs⟩
    exact hgp bs hbsf
  have hsorted : ∀ run ∈ (withIds 0 shards).map (shardRun cfg.endl),
      (runRecs rng cfg run).Pairwise (leRec cfg.ord) := by
    intro run hrun
    obtain ⟨p, hp, hpr⟩ := List.mem_map.mp hrun
    subst hpr
    rw [runRecs_shardRun]
    exact hsortshard p.2 (withIds_snd_mem hp)
  obtain ⟨E, removed, heq, hpermE, hpairE⟩ :=
    internalMerge_spec rng cfg false false ((withIds 0 shards).map (shardRun cfg.endl))
      hrne hlines hsorted
  have heqb : internalMerge rng cfg false false ((withIds 0 shards).map (shardRun cfg.endl)) =
      .ok (E.map Rec.line) removed := by
    rw [heq]
    simp
  have hflat : (((withIds 0 shards).map (shardRun cfg.endl)).map (runRecs rng cfg)) =
      shards.map (fun s => (splitLines cfg.endl s).filterMap (parseLine rng cfg)) := by
    rw [List.map_map]
    exact (List.map_congr_left (fun p _ => runRecs_shardRun rng cfg p)).trans
      (withIds_map_snd (fun s => (splitLines cfg.endl s).filterMap (parseLine rng cfg))
        shards 0)
  have e3 : (shards.map (fun s => (splitLines cfg.endl s).filterMap
      (parseLine rng cfg))).flatten =
      ((shards.map (splitLines cfg.endl)).flatten).filterMap (parseLine rng cfg) := by
    rw [filterMap_flatten_eq, List.map_map]
    rfl
  have hEperm2 : List.Perm E ((splitLines cfg.endl file).filterMap (parseLine rng cfg)) := by
    have h5 := hpermE
    rw [hflat, e3] at h5
    exact h5.trans (hperm.filterMap (parseLine rng cfg))
  have hEeq : E = (splitLines cfg.endl file).filterMap (parseLine rng cfg) :=
    sorted_perm_eq (recCmp cfg.ord) hEperm2 hpairE hsortfile
      (fun a ha b hb h1 h2 =>
        hinj a (hEperm2.mem_iff.mp ha) b (hEperm2.mem_iff.mp hb) h1 h2)
  refine ⟨E.map Rec.line, removed, heqb, ?_⟩
  rw [hEeq]
  obtain ⟨recs, hrecs2, hline2, _⟩ := mapOpt_parse_spec rng cfg (splitLines cfg.endl file) hgp
  rw [filterMap_eq_of_mapOpt hrecs2, hline2, splitLines_flatten]

/-- Witness for the C3 theorem: a two-line file with distinct keys split
into its two lines. -/
theorem c3_merge_equivalence_witness :
    ∃ out removed,
      internalMerge rng0 cfgTab false false
          ((withIds 0 [[49, 9, 97, 10], [50, 9, 98, 10]]).map (shardRun cfgTab.endl)) =
        .ok out removed ∧ out.flatten = [49, 9, 97, 10, 50, 9, 98, 10] :=
  c3_merge_equivalence rng0 cfgTab [49, 9, 97, 10, 50, 9, 98, 10]
    [[49, 9, 97, 10], [50, 9, 98, 10]] (by decide) (by decide) (by decide) (by decide)
    (by decide) (by decide)

theorem popMinGo_spec :
    ∀ (xs : List SCF) (best : SCF) (acc : List SCF),
      List.Perm ((popMinGo best acc xs).1 :: (popMinGo best acc xs).2)
        (best :: (acc ++ xs)) ∧
      ((∀ y ∈ acc, best.lines ≤ y.lines) →
        ((∀ y ∈ (popMinGo best acc xs).2, (popMinGo best acc xs).1.lines ≤ y.lines) ∧
          (popMinGo best acc xs).1.lines ≤ best.lines)) := by
  intro xs
  induction xs with
  | nil =>
    intro best acc
    constructor
    · simp only [popMinGo, List.append_nil]
      exact (List.reverse_perm acc).cons best
    · intro h
      constructor
      · intro y hy
        simp only [popMinGo] at hy ⊢
        exact h y (List.mem_reverse.mp hy)
      · simp only [popMinGo]
        exact le_refl _
  | cons x xs ih =>
    intro best acc
    by_cases h : x.lines < best.lines
    · have heq : popMinGo best acc (x :: xs) = popMinGo x (best :: acc) xs := by
        simp [popMinGo, h]
      rw [heq]
      constructor
      · refine ((ih x (best :: acc)).1).trans ?_
        refine (List.Perm.swap best x (acc ++ xs)).trans ?_
        exact (List.perm_middle.symm).cons best
      · intro hacc
        have hx : ∀ y ∈ best :: acc, x.lines ≤ y.lines := by
          intro y hy
          rcases List.mem_cons.mp hy with h2 | h2
          · subst h2
            omega
          · have := hacc y h2
            omega
        exact ⟨((ih x (best :: acc)).2 hx).1,
          le_trans ((ih x (best :: acc)).2 hx).2 (by omega)⟩
    · have heq : popMinGo best acc (x :: xs) = popMinGo best (x :: acc) xs := by
        simp [popMinGo, h]
      rw [heq]
      constructor
      · refine ((ih best (x :: acc)).1).trans ?_
        refine List.Perm.cons best ?_
        exact List.perm_middle.symm
      · intro hacc
        have hx : ∀ y ∈ x :: acc, best.lines ≤ y.lines := by
          intro y hy
          rcases List.mem_cons.mp hy with h2 | h2
          · subst h2
            omega
          · exact hacc y h2
        exact (ih best (x :: acc)).2 hx

theorem popMinSCF_spec (heap : List SCF) (h : heap ≠ []) :
    ∃ b rest, popMinSCF heap = some (b, rest) ∧ List.Perm heap (b :: rest) ∧
      ∀ y ∈ rest, b.lines ≤ y.lines := by
  cases heap with
  | nil => exact absurd rfl h
  | cons r rs =>
    have hs := popMinGo_spec rs r []
    refine ⟨(popMinGo r [] rs).1, (popMinGo r [] rs).2, rfl, (hs.1).symm,
      (hs.2 (by intro y hy ; simp at hy)).1⟩

theorem executeTask_push (kcap : Nat) (heap : List SCF) (nw : SCF)
    (h : heap.length < kcap) : executeTask kcap heap nw = nw :: heap := by
  simp only [executeTask, if_pos h]

theorem executeTask_premerge (kcap : Nat) (heap : List SCF) (nw f1 f2 : SCF)
    (h1x h2x : List SCF) (h : ¬ heap.length < kcap)
    (hp1 : popMinSCF heap = some (f1, h1x)) (hp2 : popMinSCF h1x = some (f2, h2x)) :
    executeTask kcap heap nw = nw :: ⟨f1.path, f1.lines + f2.lines⟩ :: h2x := by
  simp only [executeTask, hp1, hp2, if_neg h]

theorem executeTask_len (kcap : Nat) (hk : 2 ≤ kcap) (heap : List SCF) (nw : SCF)
    (hle : heap.length ≤ kcap) : (executeTask kcap heap nw).length ≤ kcap := by
  by_cases h : heap.length < kcap
  · rw [executeTask_push kcap heap nw h]
    simp only [List.length_cons]
    omega
  · have hlen : heap.length = kcap := by omega
    obtain ⟨f1, h1x, hp1, hperm1, _⟩ := popMinSCF_spec heap (by
      intro hh
      rw [hh] at hlen
      simp at hlen
      omega)
    have hlen1 : h1x.length + 1 = kcap := by
      have h2 := hperm1.length_eq
      simp only [List.length_cons] at h2
      omega
    obtain ⟨f2, h2x, hp2, hperm2, _⟩ := popMinSCF_spec h1x (by
      intro hh
      rw [hh] at hlen1
      simp at hlen1
      omega)
    rw [executeTask_premerge kcap heap nw f1 f2 h1x h2x h hp1 hp2]
    have h3 := hperm2.length_eq
    simp only [List.length_cons] at h3 ⊢
    omega

theorem runTasks_len (kcap : Nat) (hk : 2 ≤ kcap) :
    ∀ (ts : List SCF) (heap : List SCF), heap.length ≤ kcap →
      (runTasks kcap heap ts).length ≤ kcap := by
  intro ts
  induction ts with
  | nil =>
    intro heap hle
    exact hle
  | cons t ts2 ih =>
    intro heap hle
    exact ih (executeTask kcap heap t) (executeTask_len kcap hk heap t hle)

/-- C6: with at least one task and a run budget of at least twice the
task count, the per-worker run heap never exceeds max_runs / task_count
runs across any sequence of task completions, and when the premerge
trigger fires it pops the two runs with the smallest line counts and
pushes back a single run holding their combined lines. -/
theorem c6_premerge_invariant (maxRuns tasks : Nat) (h1 : 1 ≤ tasks)
    (h2 : 2 * tasks ≤ maxRuns) :
    (∀ (heap ts : List SCF), heap.length ≤ maxRuns / tasks →
      (runTasks (maxRuns / tasks) heap ts).length ≤ maxRuns / tasks) ∧
    (∀ (heap : List SCF) (nw : SCF), ¬ heap.length < maxRuns / tasks →
      ∃ f1 h1x f2 h2x,
        popMinSCF heap = some (f1, h1x) ∧ popMinSCF h1x = some (f2, h2x) ∧
        executeTask (maxRuns / tasks) heap nw =
          nw :: ⟨f1.path, f1.lines + f2.lines⟩ :: h2x ∧
        List.Perm heap (f1 :: f2 :: h2x) ∧
        (∀ y ∈ heap, f1.lines ≤ y.lines) ∧
        (∀ y ∈ h1x, f2.lines ≤ y.lines)) := by
  have hk : 2 ≤ maxRuns / tasks := (Nat.le_div_iff_mul_le h1).mpr h2
  constructor
  · intro heap ts hle
    exact runTasks_len (maxRuns / tasks) hk ts heap hle
  · intro heap nw h
    have hlen : 2 ≤ heap.length := by omega
    obtain ⟨f1, h1x, hp1, hperm1, hmin1⟩ := popMinSCF_spec heap (by
      intro hh
      rw [hh] at hlen
      simp at hlen)
    have hlen1 : 1 ≤ h1x.length := by
      have h2b := hperm1.length_eq
      simp only [List.length_cons] at h2b
      omega
    obtain ⟨f2, h2x, hp2, hperm2, hmin2⟩ := popMinSCF_spec h1x (by
      intro hh
      rw [hh] at hlen1
      simp at hlen1)
    refine ⟨f1, h1x, f2, h2x, hp1, hp2,
      executeTask_premerge (maxRuns / tasks) heap nw f1 f2 h1x h2x h hp1 hp2,
      hperm1.trans (hperm2.cons f1), ?_, ?_⟩
    · intro y hy
      rcases List.mem_cons.mp (hperm1.mem_iff.mp hy) with h3 | h3
      · subst h3
        exact le_refl _
      · exact hmin1 y h3
    · intro y hy
      rcases List.mem_cons.mp (hperm2.mem_iff.mp hy) with h3 | h3
      · subst h3
        exact le_refl _
      · exact hmin2 y h3

/-- Witness for the C6 theorem: budget 4 over 2 tasks caps the heap at
two runs, and the trigger on a full heap merges the two smallest. -/
theorem c6_premerge_invariant_witness :
    (runTasks (4 / 2) [] [⟨0, 1⟩, ⟨1, 2⟩, ⟨2, 3⟩]).length ≤ 4 / 2 ∧
    (∃ f1 h1x f2 h2x,
      popMinSCF [⟨0, 5⟩, ⟨1, 3⟩] = some (f1, h1x) ∧ popMinSCF h1x = some (f2, h2x) ∧
      executeTask (4 / 2) [⟨0, 5⟩, ⟨1, 3⟩] ⟨2, 1⟩ =
        ⟨2, 1⟩ :: ⟨f1.path, f1.lines + f2.lines⟩ :: h2x ∧
      List.Perm [⟨0, 5⟩, ⟨1, 3⟩] (f1 :: f2 :: h2x) ∧
      (∀ y ∈ [(⟨0, 5⟩ : SCF), ⟨1, 3⟩], f1.lines ≤ y.lines) ∧
      (∀ y ∈ h1x, f2.lines ≤ y.lines)) :=
  ⟨(c6_premerge_invariant 4 2 (by decide) (by decide)).1 [] [⟨0, 1⟩, ⟨1, 2⟩, ⟨2, 3⟩]
      (by decide),
    (c6_premerge_invariant 4 2 (by decide) (by decide)).2 [⟨0, 5⟩, ⟨1, 3⟩] ⟨2, 1⟩
      (by decide)⟩

theorem drainAll_text_some (rng : RNG) (cfg : Config) (fuel i : Nat) (r : Rec)
    (l : Bytes) (rest : List RLine) :
    drainAll rng cfg (fuel + 1) ⟨i, some r, RLine.text l :: rest⟩ =
      ((r.line :: (drainAll rng cfg fuel ⟨i, parseLine rng cfg l, rest⟩).1),
        (drainAll rng cfg fuel ⟨i, parseLine rng cfg l, rest⟩).2) := by
  simp only [drainAll, Reader.lineRecord]

theorem drainAll_none (rng : RNG) (cfg : Config) (fuel i : Nat) (rest : List RLine) :
    drainAll rng cfg (fuel + 1) ⟨i, none, rest⟩ = ([], [i]) := by
  cases rest with
  | nil => simp only [drainAll, Reader.lineRecord]
  | cons rl rest2 =>
    cases rl with
    | ioerr => simp only [drainAll, Reader.lineRecord]
    | text l => simp only [drainAll, Reader.lineRecord]

theorem drainAll_ioerr (rng : RNG) (cfg : Config) (fuel i : Nat) (h : Option Rec)
    (tail : List RLine) :
    drainAll rng cfg (fuel + 1) ⟨i, h, RLine.ioerr :: tail⟩ = ([], [i]) := by
  simp only [drainAll, Reader.lineRecord]

theorem drainAll_parse_fail (rng : RNG) (cfg : Config) (i : Nat) (bad : Bytes)
    (hbad : parseLine rng cfg bad = none) (tail : List RLine) :
    ∀ (good : List Bytes) (r0 : Rec) (fuel : Nat),
      (∀ l ∈ good, (parseLine rng cfg l).isSome) → good.length + 1 < fuel →
      drainAll rng cfg fuel ⟨i, some r0, good.map RLine.text ++ RLine.text bad :: tail⟩ =
        (r0.line :: good, [i]) := by
  intro good
  induction good with
  | nil =>
    intro r0 fuel hg hf
    rcases fuel with _ | fuel
    · omega
    rcases fuel with _ | fuel
    · omega
    show drainAll rng cfg (fuel + 1 + 1) ⟨i, some r0, RLine.text bad :: tail⟩ = _
    rw [drainAll_text_some rng cfg (fuel + 1) i r0 bad tail, hbad,
      drainAll_none rng cfg fuel i tail]
  | cons g gs ih =>
    intro r0 fuel hg hf
    rcases fuel with _ | fuel
    · omega
    show drainAll rng cfg (fuel + 1)
      ⟨i, some r0, RLine.text g :: (gs.map RLine.text ++ RLine.text bad :: tail)⟩ = _
    rw [drainAll_text_some rng cfg fuel i r0 g (gs.map RLine.text ++ RLine.text bad :: tail)]
    obtain ⟨rg, hrg⟩ := Option.isSome_iff_exists.mp (hg g (by simp))
    rw [hrg, ih rg fuel (fun l hl => hg l (by simp [hl])) (by
      simp only [List.length_cons] at hf
      omega)]
    rw [parseLine_line hrg]

/-- C10: when the next line of a run fails to parse, the run reader
reports exhaustion after emitting the records up to the last good line —
the bad line and everything after it are dropped and the run is treated
as finished; a read error additionally drops the already-buffered head
record; and a whole merge over such a run still returns ok, silently
omitting the offending and following lines. -/
theorem c10_errors_swallowed :
    (∀ (rng : RNG) (cfg : Config) (i : Nat) (r0 : Rec) (good : List Bytes) (bad : Bytes)
      (tail : List RLine), (∀ l ∈ good, (parseLine rng cfg l).isSome) →
      parseLine rng cfg bad = none → ∀ fuel, good.length + 1 < fuel →
      drainAll rng cfg fuel ⟨i, some r0, good.map RLine.text ++ RLine.text bad :: tail⟩ =
        (r0.line :: good, [i])) ∧
    (∀ (rng : RNG) (cfg : Config) (fuel i : Nat) (h : Option Rec) (tail : List RLine),
      0 < fuel → drainAll rng cfg fuel ⟨i, h, RLine.ioerr :: tail⟩ = ([], [i])) ∧
    internalMerge rng0 cfgInt false false
        [⟨0, [RLine.text [49, 10], RLine.text [51, 10]]⟩,
          ⟨1, [RLine.text [50, 10], RLine.text [120, 10], RLine.text [52, 10]]⟩] =
      MOut.ok [[49, 10], [50, 10], [51, 10]] [0] := by
  refine ⟨?_, ?_, rfl⟩
  · intro rng cfg i r0 good bad tail hg hbad fuel hf
    exact drainAll_parse_fail rng cfg i bad hbad tail good r0 fuel hg hf
  · intro rng cfg fuel i h tail hf
    rcases fuel with _ | fuel
    · omega
    · exact drainAll_ioerr rng cfg fuel i h tail

/-- Witness for the C10 theorem: a run whose third line is non-numeric
stops after two records, and a read error empties the reader at once. -/
theorem c10_errors_swallowed_witness :
    drainAll rng0 cfgInt 3 ⟨5, some ⟨[49, 10], [Key.int 1]⟩,
        [RLine.text [50, 10], RLine.text [120, 10], RLine.text [52, 10]]⟩ =
      ([[49, 10], [50, 10]], [5]) ∧
    drainAll rng0 cfgInt 1 ⟨6, some ⟨[49, 10], [Key.int 1]⟩, [RLine.ioerr]⟩ = ([], [6]) :=
  ⟨c10_errors_swallowed.1 rng0 cfgInt 5 ⟨[49, 10], [Key.int 1]⟩ [[50, 10]] [120, 10]
      [RLine.text [52, 10]] (by decide) (by decide) 3 (by decide),
    c10_errors_swallowed.2.1 rng0 cfgInt 1 6 (some ⟨[49, 10], [Key.int 1]⟩) [] (by decide)⟩

end TextFileSort
